import Mathlib

/-!
Verification of the judge-feedback parser and revision-convergence loop of the
bedtime-story generator (src/main.py).

Strings are modelled as `List Char`. The parser `parse_judge_feedback`, the
revision-request builder `story_editor` and the convergence decision of `main`'s
revision loop are embedded function-by-function below; each regular expression
of the source is implemented with its exact Python backtracking semantics on the
inputs it is applied to.

The external text-generation calls (story generation, judging, revision) are
opaque collaborators: `story_editor` returns either the unchanged story
(no external call is made) or the request that is handed to the collaborator.
-/

namespace BedtimeStory

/-- Python whitespace: the characters for which `str.isspace()` holds, which is
also the character class `\s` of the `re` module on `str` patterns
(both are `Py_UNICODE_ISSPACE`). -/
def isPySpace (c : Char) : Bool :=
  c.toNat = 0x20 || (0x9 ≤ c.toNat && c.toNat ≤ 0xd) || (0x1c ≤ c.toNat && c.toNat ≤ 0x1f) ||
  c.toNat = 0x85 || c.toNat = 0xa0 || c.toNat = 0x1680 ||
  (0x2000 ≤ c.toNat && c.toNat ≤ 0x200a) ||
  c.toNat = 0x2028 || c.toNat = 0x2029 || c.toNat = 0x202f || c.toNat = 0x205f || c.toNat = 0x3000

/-- The line boundaries recognised by Python's `str.splitlines()`. -/
def isLineBreak (c : Char) : Bool :=
  c.toNat = 0xa || c.toNat = 0xb || c.toNat = 0xc || c.toNat = 0xd ||
  c.toNat = 0x1c || c.toNat = 0x1d || c.toNat = 0x1e ||
  c.toNat = 0x85 || c.toNat = 0x2028 || c.toNat = 0x2029

/-- The character class `[1-4]` used for scores in both recognised shapes. -/
def scoreDigit (c : Char) : Bool :=
  c = '1' || c = '2' || c = '3' || c = '4'

/-- The separator class of the inline shape: colon, hyphen, en dash (U+2013). -/
def sepChar (c : Char) : Bool :=
  c = ':' || c = '-' || c.toNat = 0x2013

/-- Numeric value of a digit character, as `int()` computes it on `"1"`..`"4"`. -/
def digitVal (c : Char) : Nat := c.toNat - '0'.toNat

/-- Python `str.strip()`: remove leading and trailing whitespace. -/
def pyStrip (l : List Char) : List Char :=
  ((l.dropWhile isPySpace).reverse.dropWhile isPySpace).reverse

/-- The part of `w` after its last `'\n'`, if `w` contains one.  Used to model
the greedy match of `re.split(r'\n\s*\n', ...)`: inside a whitespace run, the
second `\n` of the pattern matches the last newline of the run. -/
def lastNewlineSplit : List Char → Option (List Char)
  | [] => none
  | c :: rest =>
    match lastNewlineSplit rest with
    | some r => some r
    | none => if c = '\n' then some rest else none

/-- Given the text after a `'\n'`, decide whether `\n\s*\n` matches here:
it does exactly when the maximal whitespace run that follows contains another
newline, and the match greedily extends to the last newline of that run.
Returns the text after the match. -/
def matchGap (l : List Char) : Option (List Char) :=
  match lastNewlineSplit (l.takeWhile isPySpace) with
  | some w2 => some (w2 ++ l.dropWhile isPySpace)
  | none => none

theorem lastNewlineSplit_length {w r : List Char}
    (h : lastNewlineSplit w = some r) : r.length < w.length := by
  induction w with
  | nil => simp [lastNewlineSplit] at h
  | cons c rest ih =>
    simp only [lastNewlineSplit] at h
    cases hr : lastNewlineSplit rest with
    | some r0 =>
      rw [hr] at h
      cases h
      exact Nat.lt_succ_of_lt (ih hr)
    | none =>
      rw [hr] at h
      by_cases hc : c = '\n'
      · simp [hc] at h
        cases h
        exact Nat.lt_succ_self _
      · simp [hc] at h

theorem matchGap_length {l r : List Char} (h : matchGap l = some r) :
    r.length < l.length := by
  unfold matchGap at h
  cases hw : lastNewlineSplit (l.takeWhile isPySpace) with
  | none => rw [hw] at h; cases h
  | some w2 =>
    rw [hw] at h
    cases h
    have h1 : w2.length < (l.takeWhile isPySpace).length := lastNewlineSplit_length hw
    have h2 : (l.takeWhile isPySpace).length + (l.dropWhile isPySpace).length = l.length := by
      rw [← List.length_append, List.takeWhile_append_dropWhile]
    simp only [List.length_append]
    omega

/-- Worker for `re.split(r'\n\s*\n', text)`: scan the text, and at every
newline that opens a blank-line gap, end the current segment.  The scan
consumes at least one character per step, so `s.length` fuel always suffices
(`goSplitF_fuel` below); the fuel only makes the recursion structural. -/
def goSplitF : Nat → List Char → List Char → List (List Char)
  | _, [], acc => [acc.reverse]
  | 0, s, acc => [acc.reverse ++ s]
  | fuel + 1, c :: rest, acc =>
    if c = '\n' then
      match matchGap rest with
      | some rest2 => acc.reverse :: goSplitF fuel rest2 []
      | none => goSplitF fuel rest (c :: acc)
    else goSplitF fuel rest (c :: acc)

def goSplit (s : List Char) (acc : List Char) : List (List Char) :=
  goSplitF s.length s acc

theorem goSplitF_nil (f : Nat) (acc : List Char) : goSplitF f [] acc = [acc.reverse] := by
  cases f <;> rfl

theorem goSplitF_succ_cons (f : Nat) (c : Char) (rest acc : List Char) :
    goSplitF (f + 1) (c :: rest) acc =
      if c = '\n' then
        match matchGap rest with
        | some rest2 => acc.reverse :: goSplitF f rest2 []
        | none => goSplitF f rest (c :: acc)
      else goSplitF f rest (c :: acc) := rfl

theorem goSplitF_fuel :
    ∀ (f1 : Nat) (s : List Char) (f2 : Nat) (acc : List Char),
      s.length ≤ f1 → s.length ≤ f2 → goSplitF f1 s acc = goSplitF f2 s acc := by
  intro f1
  induction f1 with
  | zero =>
    intro s f2 acc h1 _
    have : s = [] := List.eq_nil_of_length_eq_zero (Nat.le_zero.mp h1)
    subst this
    rw [goSplitF_nil, goSplitF_nil]
  | succ f ih =>
    intro s f2 acc h1 h2
    cases s with
    | nil => rw [goSplitF_nil, goSplitF_nil]
    | cons c rest =>
      cases f2 with
      | zero => simp at h2
      | succ f2p =>
        rw [goSplitF_succ_cons, goSplitF_succ_cons]
        simp only [List.length_cons] at h1 h2
        by_cases hc : c = '\n'
        · rw [if_pos hc, if_pos hc]
          cases hg : matchGap rest with
          | some rest2 =>
            have hlen := matchGap_length hg
            show acc.reverse :: goSplitF f rest2 [] = acc.reverse :: goSplitF f2p rest2 []
            rw [ih rest2 f2p [] (by omega) (by omega)]
          | none =>
            show goSplitF f rest (c :: acc) = goSplitF f2p rest (c :: acc)
            rw [ih rest f2p (c :: acc) (by omega) (by omega)]
        · rw [if_neg hc, if_neg hc, ih rest f2p (c :: acc) (by omega) (by omega)]

theorem goSplit_nil (acc : List Char) : goSplit [] acc = [acc.reverse] := rfl

theorem goSplit_cons_newline_some {rest rest2 : List Char}
    (h : matchGap rest = some rest2) (acc : List Char) :
    goSplit ('\n' :: rest) acc = acc.reverse :: goSplit rest2 [] := by
  unfold goSplit
  rw [show ('\n' :: rest).length = rest.length + 1 from rfl, goSplitF_succ_cons,
    if_pos rfl, h]
  show acc.reverse :: goSplitF rest.length rest2 [] =
    acc.reverse :: goSplitF rest2.length rest2 []
  have hlen := matchGap_length h
  rw [goSplitF_fuel rest.length rest2 rest2.length [] (by omega) (by omega)]

theorem goSplit_cons_newline_none {rest : List Char}
    (h : matchGap rest = none) (acc : List Char) :
    goSplit ('\n' :: rest) acc = goSplit rest ('\n' :: acc) := by
  unfold goSplit
  rw [show ('\n' :: rest).length = rest.length + 1 from rfl, goSplitF_succ_cons,
    if_pos rfl, h]

theorem goSplit_cons_other {c : Char} (hc : ¬ (c = '\n')) (rest acc : List Char) :
    goSplit (c :: rest) acc = goSplit rest (c :: acc) := by
  unfold goSplit
  rw [show (c :: rest).length = rest.length + 1 from rfl, goSplitF_succ_cons, if_neg hc]

/-- `re.split(r'\n\s*\n', text)`: split the text on blank-line gaps. -/
def splitBlank (s : List Char) : List (List Char) := goSplit s []

/-- Python `str.splitlines()`, worker with the current line accumulated in
reverse. A `"\r\n"` pair counts as a single boundary; any other line
boundary character ends the line by itself. -/
def splitlinesGo : List Char → List Char → List (List Char)
  | [], acc => if acc = [] then [] else [acc.reverse]
  | [c], acc => if isLineBreak c then [acc.reverse] else [(c :: acc).reverse]
  | c :: c2 :: rest, acc =>
    if c = '\r' && c2 = '\n' then acc.reverse :: splitlinesGo rest []
    else if isLineBreak c then acc.reverse :: splitlinesGo (c2 :: rest) []
    else splitlinesGo (c2 :: rest) (c :: acc)

theorem splitlinesGo_nilL (acc : List Char) :
    splitlinesGo [] acc = if acc = [] then [] else [acc.reverse] := rfl

theorem splitlinesGo_one (c : Char) (acc : List Char) :
    splitlinesGo [c] acc =
      if isLineBreak c then [acc.reverse] else [(c :: acc).reverse] := rfl

theorem splitlinesGo_twoPlus (c c2 : Char) (rest acc : List Char) :
    splitlinesGo (c :: c2 :: rest) acc =
      if c = '\r' && c2 = '\n' then acc.reverse :: splitlinesGo rest []
      else if isLineBreak c then acc.reverse :: splitlinesGo (c2 :: rest) []
      else splitlinesGo (c2 :: rest) (c :: acc) := rfl

/-- Python `str.splitlines()`. -/
def pySplitlines (s : List Char) : List (List Char) := splitlinesGo s []

/-!
## The inline shape (shape A)

`re.match(r'^(?P<cat>.+?)\s*\(\s*(?P<score>[1-4])\s*\)\s*[:\-–]*\s*(?P<reason>.+)$', block)`
applied to a block in which every newline has been replaced by a space, so `.`
matches every character of the block.
-/

/-- The tail `\s*[:\-–]*\s*(?P<reason>.+)$` after the closing parenthesis,
with Python's backtracking: the three greedy quantifiers consume maximal
whitespace / separators / whitespace, and when nothing is left for the
mandatory `.+`, the innermost non-empty quantifier gives one character back,
which then becomes the whole reasoning group. -/
def sepReason (l : List Char) : Option (List Char) :=
  let r := ((l.dropWhile isPySpace).dropWhile sepChar).dropWhile isPySpace
  if r ≠ [] then some r
  else
    match l.reverse with
    | [] => none
    | c :: _ => some [c]

/-- The tail `\s*\(\s*(?P<score>[1-4])\s*\)...` of the inline pattern after a
candidate category. Each `\s*` here is committed: the character required after
it is never itself whitespace, so backtracking into `\s*` cannot succeed. -/
def matchTail (l : List Char) : Option (Char × List Char) :=
  match l.dropWhile isPySpace with
  | [] => none
  | c :: l2 =>
    if c = '(' then
      match l2.dropWhile isPySpace with
      | [] => none
      | d :: l4 =>
        if scoreDigit d then
          match l4.dropWhile isPySpace with
          | [] => none
          | c2 :: l6 =>
            if c2 = ')' then
              match sepReason l6 with
              | some r => some (d, r)
              | none => none
            else none
        else none
    else none

/-- The non-greedy `(?P<cat>.+?)`: try category prefixes from the shortest on,
returning the first split whose tail matches the rest of the inline pattern.
`acc` holds the candidate category so far, reversed. -/
def findCatSplit (acc : List Char) : List Char → Option (List Char × Char × List Char)
  | [] => none
  | c :: rest =>
    match matchTail rest with
    | some (d, r) => some ((c :: acc).reverse, d, r)
    | none => findCatSplit (c :: acc) rest

structure CritiqueEntry where
  /-- the score digit, stored as the string `"1"`..`"4"` in the source and
  converted with `int()` wherever it is compared; held here as its value -/
  score : Nat
  /-- the free-form reasoning text -/
  reasoning : List Char
deriving DecidableEq, Repr

/-- Shape A: `"Category Name (4): Reasoning…"` on the newline-collapsed block.
On success the source stores `cat.strip()` and `reason.strip()`. -/
def tryShapeA (block : List Char) : Option (List Char × CritiqueEntry) :=
  match findCatSplit [] block with
  | some (cat, d, r) => some (pyStrip cat, { score := digitVal d, reasoning := pyStrip r })
  | none => none

/-!
## The two-line shape (shape B)

`re.match(r'^(?P<cat>.+?):\s*(?P<score>[1-4])\s*$', lines[0])` on the first
non-blank stripped line, then a scan of the remaining lines for
`re.match(r'^(?:Justification|Reasoning):\s*(.+)$', l, re.IGNORECASE)`.
-/

/-- The tail `:\s*(?P<score>[1-4])\s*$` after a candidate category of the
two-line pattern. The line contains no newline, so `$` is the end of it. -/
def matchTailB (l : List Char) : Option Char :=
  match l with
  | [] => none
  | c :: rest =>
    if c = ':' then
      match rest.dropWhile isPySpace with
      | [] => none
      | d :: rest2 =>
        if scoreDigit d && (rest2.dropWhile isPySpace).isEmpty then some d else none
    else none

/-- The non-greedy `(?P<cat>.+?)` of the two-line pattern, shortest first. -/
def findCatB (acc : List Char) : List Char → Option (List Char × Char)
  | [] => none
  | c :: rest =>
    match matchTailB rest with
    | some d => some ((c :: acc).reverse, d)
    | none => findCatB (c :: acc) rest

/-- ASCII lowering, modelling `re.IGNORECASE` on the ASCII keywords
`Justification` / `Reasoning`. -/
def charLower (c : Char) : Char :=
  if 'A' ≤ c && c ≤ 'Z' then Char.ofNat (c.toNat + 32) else c

/-- Case-insensitive literal prefix: `kw` is given lowercase; on success the
rest of the line is returned. -/
def matchKeywordCI (kw : List Char) (l : List Char) : Option (List Char) :=
  match kw, l with
  | [], rest => some rest
  | _ :: _, [] => none
  | k :: ks, c :: cs => if charLower c = k then matchKeywordCI ks cs else none

/-- The tail `\s*(.+)$` after the keyword colon: greedy whitespace, and when
the line ends in whitespace the quantifier gives one character back for the
mandatory `.+`. -/
def reasonAfterColon (rest : List Char) : Option (List Char) :=
  let r := rest.dropWhile isPySpace
  if r ≠ [] then some r
  else
    match rest.reverse with
    | [] => none
    | c :: _ => some [c]

/-- `re.match(r'^(?:Justification|Reasoning):\s*(.+)$', l, re.IGNORECASE)`,
returning the reasoning group. -/
def matchReasonLine (l : List Char) : Option (List Char) :=
  match matchKeywordCI ("justification:".data) l with
  | some rest => reasonAfterColon rest
  | none =>
    match matchKeywordCI ("reasoning:".data) l with
    | some rest => reasonAfterColon rest
    | none => none

/-- The scan of `lines[1:]`: the first justification/reasoning line wins and
its group is stripped; with no such line the reasoning stays empty. -/
def firstReason : List (List Char) → List Char
  | [] => []
  | l :: ls =>
    match matchReasonLine l with
    | some r => pyStrip r
    | none => firstReason ls

/-- `[l.strip() for l in entry.splitlines() if l.strip()]`. -/
def linesOf (entry : List Char) : List (List Char) :=
  ((pySplitlines entry).map pyStrip).filter (fun l => !l.isEmpty)

/-- Shape B on the (stripped, non-empty) entry.  `lines[0]` on an entry with
no non-blank line would raise `IndexError` in the source; that is the
`Except.error` case. -/
def tryShapeB (entry : List Char) : Except Unit (Option (List Char × CritiqueEntry)) :=
  match linesOf entry with
  | [] => .error ()
  | l0 :: rest =>
    match findCatB [] l0 with
    | some (cat, d) =>
      .ok (some (pyStrip cat, { score := digitVal d, reasoning := firstReason rest }))
    | none => .ok none

/-!
## The parser and the controller
-/

/-- One loop iteration of `parse_judge_feedback`: strip the raw block, skip it
when empty, collapse newlines and try shape A, then fall back to shape B. -/
def processEntry (entry0 : List Char) : Except Unit (Option (List Char × CritiqueEntry)) :=
  let entry := pyStrip entry0
  if entry.isEmpty then .ok none
  else
    let block := entry.map (fun c => if c = '\n' then ' ' else c)
    match tryShapeA block with
    | some kv => .ok (some kv)
    | none => tryShapeB entry

/-- The parsed critique: a Python dict as an insertion-ordered association
list, keys unique. -/
abbrev Feedback := List (List Char × CritiqueEntry)

/-- `feedback[cat] = value` on a Python dict: overwrite in place when the key
is present (keeping its original position), append otherwise. -/
def dictInsert (k : List Char) (v : CritiqueEntry) : Feedback → Feedback
  | [] => [(k, v)]
  | (k0, v0) :: rest =>
    if k0 = k then (k0, v) :: rest else (k0, v0) :: dictInsert k v rest

/-- The entry loop of `parse_judge_feedback` over the split blocks. -/
def parseBlocks : List (List Char) → Feedback → Except Unit Feedback
  | [], d => .ok d
  | e :: rest, d =>
    match processEntry e with
    | .error u => .error u
    | .ok none => parseBlocks rest d
    | .ok (some (k, v)) => parseBlocks rest (dictInsert k v d)

/-- `parse_judge_feedback(text)` of src/main.py: split the stripped text on
blank lines and fold the blocks into a dict.  `Except.error` would be an
uncaught `IndexError`; it is proved unreachable below. -/
def parse_judge_feedback (text : List Char) : Except Unit Feedback :=
  parseBlocks (splitBlank (pyStrip text)) []

/-- `"\n".join(lines)`. -/
def joinLines : List (List Char) → List Char
  | [] => []
  | [l] => l
  | l :: ls => l ++ '\n' :: joinLines ls

/-- One line of the suggestions string built by `story_editor`:
`f"- {cat}: score {score} because {info['reasoning']}"` with
`score = int(info["score"])`. -/
def renderIssue (cat : List Char) (e : CritiqueEntry) : List Char :=
  ("- ".data) ++ cat ++ (": score ".data) ++ (Nat.repr e.score).data ++
    (" because ".data) ++ e.reasoning

/-- The `issues` list of `story_editor`: one rendered line per entry whose
score is below 4, in dict order. -/
def issuesOf (feedback : Feedback) : List (List Char) :=
  feedback.filterMap (fun p => if p.2.score < 4 then some (renderIssue p.1 p.2) else none)

/-- What `story_editor` hands to the external revision collaborator: the
original prompt, the current story and the joined suggestions, all of which
appear in the user message of the request. -/
structure RevisionRequest where
  topic : List Char
  story : List Char
  suggestions : List Char
deriving DecidableEq, Repr

/-- The request `story_editor` builds when at least one issue exists. -/
def revisionRequest (prompt story : List Char) (feedback : Feedback) : RevisionRequest :=
  { topic := prompt, story := story, suggestions := joinLines (issuesOf feedback) }

/-- `story_editor(prompt, story, feedback)`: with no sub-4 issue the story is
returned unchanged and no external call happens (`Sum.inl`); otherwise the
request is handed to the external collaborator (`Sum.inr`). -/
def story_editor (prompt story : List Char) (feedback : Feedback) :
    List Char ⊕ RevisionRequest :=
  if (issuesOf feedback).isEmpty then Sum.inl story
  else Sum.inr (revisionRequest prompt story feedback)

/-- Outcome of one iteration of `main`'s revision loop after the judge text
has been parsed: either the loop breaks and the current story is final, or a
revision request is issued. -/
inductive StepResult where
  | converged (story : List Char)
  | revise (request : RevisionRequest)
deriving DecidableEq, Repr

/-- The body of `main`'s `while True` loop after `parse_judge_feedback`:
`low = [... if int(info["score"]) < 4]`; break when `low` is empty, otherwise
call `story_editor` (whose request is `revisionRequest`, since `low` non-empty
forces the `Sum.inr` branch). -/
def loopStep (topic story : List Char) (parsed : Feedback) : StepResult :=
  if (parsed.filter (fun p => decide (p.2.score < 4))).isEmpty then .converged story
  else .revise (revisionRequest topic story parsed)

/-- Lookup in the critique dict, `feedback[cat]`. -/
def lookupEntry (k : List Char) : Feedback → Option CritiqueEntry
  | [] => none
  | (k0, v) :: rest => if k0 = k then some v else lookupEntry k rest

/-!
## Spec-side definitions

The spec describes two serialisations of a critique entry (§4.1) and a
rendering of the revision request (§4.2). These definitions follow the spec's
words; the round-trip and formatting claims compare them with the parser and
`story_editor` above.
-/

/-- Spec shape A, `<category> (<score>): <reasoning>`, one line. -/
def renderShapeA (cat : List Char) (d : Char) (reason : List Char) : List Char :=
  cat ++ (" (".data) ++ [d] ++ ("): ".data) ++ reason

/-- Spec shape B, `<category>: <score>` and a `Reasoning:` line. For an empty
reasoning the `Reasoning:` line carries nothing after its colon. -/
def renderShapeB (cat : List Char) (d : Char) (reason : List Char) : List Char :=
  cat ++ (": ".data) ++ [d] ++ '\n' :: ("Reasoning:".data) ++
    (if reason.isEmpty then [] else ' ' :: reason)

/-- Which of the two recognised shapes an entry is serialised into. -/
inductive Shape where
  | A
  | B
deriving DecidableEq, Repr

/-- A serialisable critique item: shape choice, category text, score digit,
reasoning text. -/
abbrev Item := Shape × List Char × Char × List Char

def renderItem : Item → List Char
  | (.A, cat, d, r) => renderShapeA cat d r
  | (.B, cat, d, r) => renderShapeB cat d r

/-- Blocks separated by one blank line. -/
def joinBlocks : List (List Char) → List Char
  | [] => []
  | [b] => b
  | b :: bs => b ++ '\n' :: '\n' :: joinBlocks bs

/-- Serialise a critique set, separating entries by blank lines (§8 P1). -/
def serializeCritiques (items : List Item) : List Char :=
  joinBlocks (items.map renderItem)

def itemKey (it : Item) : List Char := it.2.1

/-- The dict entry an item stands for. -/
def itemPair (it : Item) : List Char × CritiqueEntry :=
  (it.2.1, { score := digitVal it.2.2.1, reasoning := it.2.2.2 })

/-- An inline-shape block with an arbitrary score token in the parentheses. -/
def renderInlineTok (cat tok reason : List Char) : List Char :=
  cat ++ (" (".data) ++ tok ++ ("): ".data) ++ reason

/-- A first-line-of-shape-B block with an arbitrary score token. -/
def renderTwoLineTok (cat tok : List Char) : List Char :=
  cat ++ (": ".data) ++ tok

/-- The issue rendering the spec claims for the revision request:
`<category>: score <n> because <reasoning>` (§4.2), with no prefix. -/
def claimedIssueText (cat : List Char) (e : CritiqueEntry) : List Char :=
  cat ++ (": score ".data) ++ (Nat.repr e.score).data ++ (" because ".data) ++ e.reasoning

/-!
## Well-formedness predicates used in the theorem statements
-/

/-- A piece of text that is non-empty, already stripped (no leading or
trailing whitespace) and free of line boundaries. -/
def isClean (l : List Char) : Bool :=
  !l.isEmpty && decide (pyStrip l = l) && l.all (fun c => !isLineBreak c)

/-- Every newline inside the text is immediately followed by a
non-whitespace character (so it opens no blank-line gap), and the text does
not end in a newline. -/
def nlOk : List Char → Bool
  | [] => true
  | c :: rest =>
    if c = '\n' then
      match rest with
      | [] => false
      | c2 :: _ => !isPySpace c2 && nlOk rest
    else nlOk rest

/-- A block that survives the blank-line split intact: non-empty, stripped at
both ends, and with no blank-line gap inside. -/
def goodBlock (b : List Char) : Bool :=
  !b.isEmpty &&
  (match b.head? with | some c => !isPySpace c | none => false) &&
  (match b.getLast? with | some c => !isPySpace c | none => false) &&
  nlOk b

/-- A score token that cannot be mistaken for a valid score: non-empty, no
parenthesis, no line boundary, and its first and last characters are neither
whitespace nor one of the digits 1–4. -/
def badScoreTok (tok : List Char) : Bool :=
  !tok.isEmpty &&
  !(decide ('(' ∈ tok)) &&
  tok.all (fun c => !isLineBreak c) &&
  (match tok.head? with | some c => !isPySpace c && !scoreDigit c | none => false) &&
  (match tok.getLast? with | some c => !isPySpace c && !scoreDigit c | none => false)

/-- Well-formedness of a serialisable item for the round-trip claim: category
clean and parenthesis-free with a valid score digit; the reasoning clean and,
for the inline shape, non-empty; for the two-line shape the reasoning is
parenthesis-free and either empty or clean. -/
def wfItem : Item → Bool
  | (.A, cat, d, r) =>
    isClean cat && !(decide ('(' ∈ cat)) && scoreDigit d && isClean r
  | (.B, cat, d, r) =>
    isClean cat && !(decide ('(' ∈ cat)) && scoreDigit d &&
      !(decide ('(' ∈ r)) && (r.isEmpty || isClean r)

/-!
## Basic lemmas: character classes, `dropWhile`, `pyStrip`
-/

theorem isLineBreak_isPySpace {c : Char} (h : isLineBreak c = true) : isPySpace c = true := by
  unfold isLineBreak at h
  unfold isPySpace
  simp only [Bool.or_eq_true, Bool.and_eq_true, decide_eq_true_eq] at h ⊢
  omega

theorem scoreDigit_cases {c : Char} (h : scoreDigit c = true) :
    c = '1' ∨ c = '2' ∨ c = '3' ∨ c = '4' := by
  unfold scoreDigit at h
  simp only [Bool.or_eq_true, decide_eq_true_eq] at h
  tauto

theorem scoreDigit_space {c : Char} (h : scoreDigit c = true) : isPySpace c = false := by
  rcases scoreDigit_cases h with h | h | h | h <;> subst h <;> decide

theorem scoreDigit_break {c : Char} (h : scoreDigit c = true) : isLineBreak c = false := by
  rcases scoreDigit_cases h with h | h | h | h <;> subst h <;> decide

theorem scoreDigit_lparen {c : Char} (h : scoreDigit c = true) : c ≠ '(' := by
  rcases scoreDigit_cases h with h | h | h | h <;> subst h <;> decide

theorem scoreDigit_colon {c : Char} (h : scoreDigit c = true) : c ≠ ':' := by
  rcases scoreDigit_cases h with h | h | h | h <;> subst h <;> decide

theorem digitVal_bounds {c : Char} (h : scoreDigit c = true) :
    1 ≤ digitVal c ∧ digitVal c ≤ 4 := by
  rcases scoreDigit_cases h with h | h | h | h <;> subst h <;> exact ⟨by decide, by decide⟩

theorem dropWhile_append_of_mem {p : Char → Bool} {l : List Char} {x : Char}
    (hx : x ∈ l) (hpx : p x = false) (r : List Char) :
    (l ++ r).dropWhile p = l.dropWhile p ++ r := by
  induction l with
  | nil => cases hx
  | cons c t ih =>
    by_cases hc : p c = true
    · have hxt : x ∈ t := by
        rcases List.mem_cons.mp hx with rfl | h
        · rw [hpx] at hc; cases hc
        · exact h
      rw [List.cons_append, List.dropWhile_cons_of_pos hc,
        List.dropWhile_cons_of_pos hc, ih hxt]
    · rw [List.cons_append, List.dropWhile_cons_of_neg hc,
        List.dropWhile_cons_of_neg hc, List.cons_append]

theorem dropWhile_head_not {p : Char → Bool} {l r : List Char} {c : Char}
    (h : l.dropWhile p = c :: r) : p c = false ∧ c ∈ l := by
  induction l with
  | nil => cases h
  | cons a t ih =>
    by_cases ha : p a = true
    · rw [List.dropWhile_cons_of_pos ha] at h
      rcases ih h with ⟨h1, h2⟩
      exact ⟨h1, List.mem_cons_of_mem _ h2⟩
    · rw [List.dropWhile_cons_of_neg ha] at h
      cases h
      exact ⟨Bool.not_eq_true _ ▸ ha, List.mem_cons_self _ _⟩

theorem mem_dropWhile_of_mem {p : Char → Bool} {l : List Char} {x : Char}
    (hx : x ∈ l) (hpx : p x = false) : x ∈ l.dropWhile p := by
  induction l with
  | nil => cases hx
  | cons c t ih =>
    by_cases hc : p c = true
    · have hxt : x ∈ t := by
        rcases List.mem_cons.mp hx with rfl | h
        · rw [hpx] at hc; cases hc
        · exact h
      rw [List.dropWhile_cons_of_pos hc]
      exact ih hxt
    · rw [List.dropWhile_cons_of_neg hc]
      exact hx

theorem dropWhile_eq_self_of_head {p : Char → Bool} {l : List Char}
    (h : ∀ c, l.head? = some c → p c = false) : l.dropWhile p = l := by
  cases l with
  | nil => rfl
  | cons a t =>
    have ha := h a rfl
    rw [List.dropWhile_cons_of_neg (by simp [ha])]

theorem takeWhile_eq_nil_of_head {p : Char → Bool} {l : List Char}
    (h : ∀ c, l.head? = some c → p c = false) : l.takeWhile p = [] := by
  cases l with
  | nil => rfl
  | cons a t =>
    have ha := h a rfl
    rw [List.takeWhile_cons_of_neg (by simp [ha])]

theorem pyStrip_eq_self {l : List Char}
    (h1 : ∀ c, l.head? = some c → isPySpace c = false)
    (h2 : ∀ c, l.getLast? = some c → isPySpace c = false) : pyStrip l = l := by
  unfold pyStrip
  rw [dropWhile_eq_self_of_head h1, dropWhile_eq_self_of_head ?hrev, List.reverse_reverse]
  case hrev =>
    intro c hc
    rw [List.head?_reverse] at hc
    exact h2 c hc

theorem mem_pyStrip_of_mem {l : List Char} {x : Char}
    (hx : x ∈ l) (hpx : isPySpace x = false) : x ∈ pyStrip l := by
  unfold pyStrip
  rw [List.mem_reverse]
  exact mem_dropWhile_of_mem (List.mem_reverse.mpr (mem_dropWhile_of_mem hx hpx)) hpx

theorem pyStrip_ne_nil_of_mem {l : List Char} {x : Char}
    (hx : x ∈ l) (hpx : isPySpace x = false) : pyStrip l ≠ [] :=
  List.ne_nil_of_mem (mem_pyStrip_of_mem hx hpx)

theorem pyStrip_getLast_not_space {l : List Char} {c : Char}
    (h : (pyStrip l).getLast? = some c) : isPySpace c = false := by
  unfold pyStrip at h
  rw [List.getLast?_reverse] at h
  cases hd : ((l.dropWhile isPySpace).reverse.dropWhile isPySpace) with
  | nil => rw [hd] at h; cases h
  | cons a t =>
    rw [hd] at h
    cases h
    exact (dropWhile_head_not hd).1

theorem getLast?_suffix {l m : List Char} (hs : m <:+ l) (hne : m ≠ []) :
    m.getLast? = l.getLast? := by
  rcases hs with ⟨pre, rfl⟩
  exact (List.getLast?_append_of_ne_nil pre hne).symm

theorem pyStrip_head_not_space {l : List Char} {c : Char}
    (h : (pyStrip l).head? = some c) : isPySpace c = false := by
  unfold pyStrip at h
  rw [List.head?_reverse] at h
  have hne : (l.dropWhile isPySpace).reverse.dropWhile isPySpace ≠ [] := by
    intro hnil
    rw [hnil] at h
    cases h
  have hsuf := List.dropWhile_suffix (l := (l.dropWhile isPySpace).reverse) isPySpace
  rw [getLast?_suffix hsuf hne, List.getLast?_reverse] at h
  cases hd : l.dropWhile isPySpace with
  | nil => rw [hd] at h; cases h
  | cons a t =>
    rw [hd] at h
    cases h
    exact (dropWhile_head_not hd).1

theorem isClean_parts {l : List Char} (h : isClean l = true) :
    l ≠ [] ∧ pyStrip l = l ∧ ∀ c ∈ l, isLineBreak c = false := by
  unfold isClean at h
  simp only [Bool.and_eq_true, Bool.not_eq_true', List.isEmpty_eq_false_iff_exists_mem,
    decide_eq_true_eq, List.all_eq_true] at h
  refine ⟨?_, h.1.2, ?_⟩
  · rcases h.1.1 with ⟨x, hx⟩
    exact List.ne_nil_of_mem hx
  · intro c hc
    have := h.2 c hc
    simpa using this

theorem isClean_head {l : List Char} (h : isClean l = true) {c : Char}
    (hc : l.head? = some c) : isPySpace c = false := by
  have hp := (isClean_parts h).2.1
  rw [← hp] at hc
  exact pyStrip_head_not_space hc

theorem isClean_getLast {l : List Char} (h : isClean l = true) {c : Char}
    (hc : l.getLast? = some c) : isPySpace c = false := by
  have hp := (isClean_parts h).2.1
  rw [← hp] at hc
  exact pyStrip_getLast_not_space hc

theorem isClean_no_newline {l : List Char} (h : isClean l = true) : '\n' ∉ l := by
  intro hmem
  have := (isClean_parts h).2.2 '\n' hmem
  simp [isLineBreak] at this

theorem mem_of_getLast?_some {l : List Char} {x : Char} (h : l.getLast? = some x) :
    x ∈ l := by
  rcases List.mem_getLast?_eq_getLast (show x ∈ l.getLast? by rw [h]; rfl) with ⟨hne, rfl⟩
  exact List.getLast_mem hne

theorem getLast?_some_of_ne_nil {l : List Char} (h : l ≠ []) :
    ∃ x, l.getLast? = some x := by
  cases hl : l.getLast? with
  | none => exact absurd (List.getLast?_eq_none_iff.mp hl) h
  | some x => exact ⟨x, rfl⟩

theorem map_eq_self_of_fix {l : List Char} {f : Char → Char}
    (h : ∀ x ∈ l, f x = x) : l.map f = l := by
  induction l with
  | nil => rfl
  | cons a t ih =>
    simp only [List.map_cons, h a (List.mem_cons_self a t),
      ih (fun x hx => h x (List.mem_cons_of_mem _ hx))]

theorem dropWhile_ne_nil_of_mem {p : Char → Bool} {l : List Char} {x : Char}
    (hx : x ∈ l) (hpx : p x = false) : l.dropWhile p ≠ [] :=
  List.ne_nil_of_mem (mem_dropWhile_of_mem hx hpx)

/-!
## Shape A: matching lemmas
-/

theorem matchTail_none_of_no_lparen {l : List Char} (h : '(' ∉ l) :
    matchTail l = none := by
  unfold matchTail
  cases hd : l.dropWhile isPySpace with
  | nil => rfl
  | cons c l2 =>
    have hc : c ∈ l := (dropWhile_head_not hd).2
    have hne : c ≠ '(' := fun hh => h (hh ▸ hc)
    simp [hne]

theorem matchTail_append_none {pre : List Char} {x : Char} (rest : List Char)
    (hx : x ∈ pre) (hxs : isPySpace x = false) (hpar : '(' ∉ pre) :
    matchTail (pre ++ rest) = none := by
  unfold matchTail
  rw [dropWhile_append_of_mem hx hxs rest]
  cases hd : pre.dropWhile isPySpace with
  | nil => exact absurd hd (dropWhile_ne_nil_of_mem hx hxs)
  | cons c t =>
    have hc : c ∈ pre := (dropWhile_head_not hd).2
    have hne : c ≠ '(' := fun hh => hpar (hh ▸ hc)
    simp [hne]

theorem findCatSplit_none_of_no_lparen {l : List Char} (h : '(' ∉ l) :
    ∀ acc, findCatSplit acc l = none := by
  induction l with
  | nil => intro acc; rfl
  | cons c rest ih =>
    intro acc
    have hrest : '(' ∉ rest := fun hm => h (List.mem_cons_of_mem _ hm)
    simp only [findCatSplit, matchTail_none_of_no_lparen hrest]
    exact ih hrest _

theorem findCatSplit_skip {cat : List Char} {rest : List Char}
    (h : ∀ a b, cat = a ++ b → a ≠ [] → matchTail (b ++ rest) = none) :
    ∀ acc, findCatSplit acc (cat ++ rest) = findCatSplit (cat.reverse ++ acc) rest := by
  induction cat with
  | nil => intro acc; simp
  | cons c cat' ih =>
    intro acc
    have h0 : matchTail (cat' ++ rest) = none := h [c] cat' rfl (by simp)
    simp only [List.cons_append, findCatSplit, List.append_eq, h0]
    rw [ih (fun a b hab ha => h (c :: a) b (by rw [hab, List.cons_append]) (by simp)) (c :: acc)]
    congr 1
    simp

theorem findCatSplit_boundary {cat rest : List Char} {d : Char} {r : List Char}
    (hne : cat ≠ [])
    (h : ∀ a b, cat = a ++ b → a ≠ [] → b ≠ [] → matchTail (b ++ rest) = none)
    (hs : matchTail rest = some (d, r)) :
    ∀ acc, findCatSplit acc (cat ++ rest) = some (acc.reverse ++ cat, d, r) := by
  have heq : ∀ (acc : List Char) (c : Char) (l : List Char),
      findCatSplit acc (c :: l) =
        match matchTail l with
        | some (d, r) => some ((c :: acc).reverse, d, r)
        | none => findCatSplit (c :: acc) l := fun _ _ _ => rfl
  induction cat with
  | nil => exact absurd rfl hne
  | cons c cat' ih =>
    intro acc
    cases cat' with
    | nil =>
      rw [List.cons_append, List.nil_append, heq, hs]
      simp
    | cons c2 cat'' =>
      have h0 : matchTail ((c2 :: cat'') ++ rest) = none :=
        h [c] (c2 :: cat'') rfl (by simp) (by simp)
      rw [List.cons_append, heq, h0,
        ih (by simp) (fun a b hab ha hb =>
          h (c :: a) b (by rw [hab]; rfl) (by simp) hb) (c :: acc)]
      simp

theorem sepReason_glue {reason : List Char} (hne : reason ≠ [])
    (hhead : ∀ c, reason.head? = some c → isPySpace c = false) :
    sepReason (':' :: ' ' :: reason) = some reason := by
  have h1 : isPySpace ':' = false := by decide
  have h2 : sepChar ':' = true := by decide
  have h3 : sepChar ' ' = false := by decide
  have h4 : isPySpace ' ' = true := by decide
  unfold sepReason
  simp only [List.dropWhile_cons, h1, h2, h3, h4, if_true, if_false,
    Bool.false_eq_true, Bool.true_eq_false, ite_true, ite_false,
    dropWhile_eq_self_of_head hhead]
  simp [hne]

theorem matchTail_glue {d : Char} {reason : List Char} (hd : scoreDigit d = true)
    (hne : reason ≠ []) (hhead : ∀ c, reason.head? = some c → isPySpace c = false) :
    matchTail (' ' :: '(' :: d :: ')' :: ':' :: ' ' :: reason) = some (d, reason) := by
  have h1 : isPySpace ' ' = true := by decide
  have h2 : isPySpace '(' = false := by decide
  have h3 : isPySpace d = false := scoreDigit_space hd
  have h4 : isPySpace ')' = false := by decide
  unfold matchTail
  simp only [List.dropWhile_cons, h1, h2, h3, h4, Bool.false_eq_true, ite_true,
    ite_false, if_true, if_false]
  simp only [hd, ite_true, if_true, sepReason_glue hne hhead]

theorem renderShapeA_eq (cat : List Char) (d : Char) (reason : List Char) :
    renderShapeA cat d reason = cat ++ (' ' :: '(' :: d :: ')' :: ':' :: ' ' :: reason) := by
  unfold renderShapeA
  rw [List.append_assoc, List.append_assoc, List.append_assoc]
  rfl

theorem tryShapeA_renderA {cat : List Char} {d : Char} {reason : List Char}
    (hcat : isClean cat = true) (hpar : '(' ∉ cat) (hd : scoreDigit d = true)
    (hr : isClean reason = true) :
    tryShapeA (renderShapeA cat d reason) =
      some (cat, { score := digitVal d, reasoning := reason }) := by
  obtain ⟨hcne, hcstrip, _⟩ := isClean_parts hcat
  obtain ⟨hrne, hrstrip, _⟩ := isClean_parts hr
  have hglue : matchTail (' ' :: '(' :: d :: ')' :: ':' :: ' ' :: reason) = some (d, reason) :=
    matchTail_glue hd hrne (fun c hc => isClean_head hr hc)
  have hfail : ∀ a b, cat = a ++ b → a ≠ [] → b ≠ [] →
      matchTail (b ++ (' ' :: '(' :: d :: ')' :: ':' :: ' ' :: reason)) = none := by
    intro a b hab ha hb
    obtain ⟨x, hx⟩ := getLast?_some_of_ne_nil hb
    have hxcat : cat.getLast? = some x := by
      rw [hab, List.getLast?_append_of_ne_nil a hb]; exact hx
    have hxs : isPySpace x = false := isClean_getLast hcat hxcat
    have hxb : x ∈ b := mem_of_getLast?_some hx
    have hparb : '(' ∉ b := fun hm => hpar (hab ▸ List.mem_append_right a hm)
    exact matchTail_append_none _ hxb hxs hparb
  unfold tryShapeA
  rw [renderShapeA_eq, findCatSplit_boundary hcne hfail hglue []]
  simp [hcstrip, hrstrip]

theorem renderShapeA_no_newline {cat : List Char} {d : Char} {reason : List Char}
    (hcat : isClean cat = true) (hd : scoreDigit d = true) (hr : isClean reason = true) :
    '\n' ∉ renderShapeA cat d reason := by
  rw [renderShapeA_eq]
  intro hm
  rcases List.mem_append.mp hm with hm | hm
  · exact isClean_no_newline hcat hm
  · simp only [List.mem_cons] at hm
    rcases hm with h | h | h | h | h | h | h
    · exact absurd h (by decide)
    · exact absurd h (by decide)
    · subst h; exact absurd hd (by decide)
    · exact absurd h (by decide)
    · exact absurd h (by decide)
    · exact absurd h (by decide)
    · exact isClean_no_newline hr h

theorem renderShapeA_ne_nil {cat : List Char} {d : Char} {reason : List Char} :
    renderShapeA cat d reason ≠ [] := by
  rw [renderShapeA_eq]
  cases cat <;> simp

theorem renderShapeA_strip {cat : List Char} {d : Char} {reason : List Char}
    (hcat : isClean cat = true) (hr : isClean reason = true) :
    pyStrip (renderShapeA cat d reason) = renderShapeA cat d reason := by
  obtain ⟨hcne, _, _⟩ := isClean_parts hcat
  obtain ⟨hrne, _, _⟩ := isClean_parts hr
  apply pyStrip_eq_self
  · intro c hc
    rw [renderShapeA_eq] at hc
    cases cat with
    | nil => exact absurd rfl hcne
    | cons a t =>
      rw [List.cons_append] at hc
      cases hc
      exact isClean_head hcat rfl
  · intro c hc
    unfold renderShapeA at hc
    rw [List.getLast?_append_of_ne_nil _ hrne] at hc
    exact isClean_getLast hr hc

theorem map_newline_id {l : List Char} (h : '\n' ∉ l) :
    l.map (fun c => if c = '\n' then ' ' else c) = l := by
  apply map_eq_self_of_fix
  intro x hx
  have hne : ¬ (x = '\n') := fun hh => h (hh ▸ hx)
  exact if_neg hne

theorem processEntry_renderA {cat : List Char} {d : Char} {reason : List Char}
    (hcat : isClean cat = true) (hpar : '(' ∉ cat) (hd : scoreDigit d = true)
    (hr : isClean reason = true) :
    processEntry (renderShapeA cat d reason) =
      .ok (some (cat, { score := digitVal d, reasoning := reason })) := by
  have hne : (renderShapeA cat d reason).isEmpty = false := by
    simp [List.isEmpty_eq_false, renderShapeA_ne_nil]
  unfold processEntry
  simp only [renderShapeA_strip hcat hr, hne, Bool.false_eq_true, if_false, ite_false]
  rw [map_newline_id (renderShapeA_no_newline hcat hd hr),
    tryShapeA_renderA hcat hpar hd hr]

theorem goSplit_no_newline {b : List Char} (h : '\n' ∉ b) :
    ∀ acc, goSplit b acc = [acc.reverse ++ b] := by
  induction b with
  | nil => intro acc; rw [goSplit_nil]; simp
  | cons c rest ih =>
    intro acc
    have hc : ¬ (c = '\n') := fun hh => h (hh ▸ List.mem_cons_self _ _)
    rw [goSplit_cons_other hc, ih (fun hm => h (List.mem_cons_of_mem _ hm)) (c :: acc)]
    simp

theorem parse_single_renderA {cat : List Char} {d : Char} {reason : List Char}
    (hcat : isClean cat = true) (hpar : '(' ∉ cat) (hd : scoreDigit d = true)
    (hr : isClean reason = true) :
    parse_judge_feedback (renderShapeA cat d reason) =
      .ok [(cat, { score := digitVal d, reasoning := reason })] := by
  unfold parse_judge_feedback splitBlank
  rw [renderShapeA_strip hcat hr,
    goSplit_no_newline (renderShapeA_no_newline hcat hd hr) []]
  simp only [List.reverse_nil, List.nil_append]
  unfold parseBlocks
  rw [processEntry_renderA hcat hpar hd hr]
  rfl

/-!
## Shape B: matching lemmas
-/

theorem matchTailB_cons (c : Char) (rest : List Char) :
    matchTailB (c :: rest) =
      if c = ':' then
        match rest.dropWhile isPySpace with
        | [] => none
        | d :: rest2 =>
          if (scoreDigit d && (rest2.dropWhile isPySpace).isEmpty) = true then some d
          else none
      else none := rfl

theorem findCatB_cons (acc : List Char) (c : Char) (l : List Char) :
    findCatB acc (c :: l) =
      match matchTailB l with
      | some d => some ((c :: acc).reverse, d)
      | none => findCatB (c :: acc) l := rfl

theorem matchTailB_mem {q : List Char} {e : Char} (h : matchTailB (':' :: q) = some e) :
    ∀ x ∈ q, isPySpace x = true ∨ scoreDigit x = true := by
  rw [matchTailB_cons, if_pos rfl] at h
  cases hq : q.dropWhile isPySpace with
  | nil => rw [hq] at h; cases h
  | cons d rest2 =>
    rw [hq] at h
    by_cases hcond : (scoreDigit d && (rest2.dropWhile isPySpace).isEmpty) = true
    · have hdig : scoreDigit d = true := ((Bool.and_eq_true _ _).mp hcond).1
      have hrest2 : ∀ x ∈ rest2, isPySpace x = true := by
        have hemp := ((Bool.and_eq_true _ _).mp hcond).2
        intro x hx
        exact List.dropWhile_eq_nil_iff.mp (by simpa [List.isEmpty_iff] using hemp) x hx
      intro x hx
      have hsplit : q = q.takeWhile isPySpace ++ (d :: rest2) := by
        rw [← hq, List.takeWhile_append_dropWhile]
      rw [hsplit] at hx
      rcases List.mem_append.mp hx with hx | hx
      · exact Or.inl (List.mem_takeWhile_imp hx)
      · rcases List.mem_cons.mp hx with rfl | hx
        · exact Or.inr hdig
        · exact Or.inl (hrest2 x hx)
    · have h2 : (if (scoreDigit d && (rest2.dropWhile isPySpace).isEmpty) = true
          then some d else none) = some e := h
      rw [if_neg hcond] at h2
      cases h2

theorem matchTailB_append_none {b : List Char} (rest : List Char) (hb : b ≠ [])
    (hcol : ':' ∈ rest) : matchTailB (b ++ rest) = none := by
  cases b with
  | nil => exact absurd rfl hb
  | cons c b2 =>
    rw [List.cons_append]
    by_cases hc : c = ':'
    · subst hc
      cases hm : matchTailB (':' :: (b2 ++ rest)) with
      | none => rfl
      | some e =>
        rcases matchTailB_mem hm ':' (List.mem_append_right b2 hcol) with h | h
        · exact absurd h (by decide)
        · exact absurd h (by decide)
    · rw [matchTailB_cons, if_neg hc]

theorem matchTailB_glue {d : Char} (hd : scoreDigit d = true) :
    matchTailB (':' :: ' ' :: [d]) = some d := by
  rw [matchTailB_cons, if_pos rfl, List.dropWhile_cons_of_pos (by decide),
    List.dropWhile_cons_of_neg (by simp [scoreDigit_space hd])]
  simp [hd]

theorem findCatB_boundary {cat rest : List Char} {e : Char}
    (hne : cat ≠ [])
    (h : ∀ a b, cat = a ++ b → a ≠ [] → b ≠ [] → matchTailB (b ++ rest) = none)
    (hs : matchTailB rest = some e) :
    ∀ acc, findCatB acc (cat ++ rest) = some (acc.reverse ++ cat, e) := by
  induction cat with
  | nil => exact absurd rfl hne
  | cons c cat2 ih =>
    intro acc
    cases cat2 with
    | nil =>
      rw [List.cons_append, List.nil_append, findCatB_cons, hs]
      simp
    | cons c2 cat3 =>
      have h0 : matchTailB ((c2 :: cat3) ++ rest) = none :=
        h [c] (c2 :: cat3) rfl (by simp) (by simp)
      rw [List.cons_append, findCatB_cons, h0,
        ih (by simp) (fun a b hab ha hb =>
          h (c :: a) b (by rw [hab]; rfl) (by simp) hb) (c :: acc)]
      simp

theorem matchTailB_none_of_last {x : Char}
    (hxs : isPySpace x = false) (hxd : scoreDigit x = false) :
    ∀ t, t.getLast? = some x → matchTailB t = none := by
  intro t
  cases t with
  | nil => intro hx; rfl
  | cons c rest =>
    intro hx
    by_cases hc : c = ':'
    · subst hc
      cases hm : matchTailB (':' :: rest) with
      | none => rfl
      | some e =>
        have hrest : rest ≠ [] := by
          intro hr
          subst hr
          rw [matchTailB_cons, if_pos rfl] at hm
          cases hm
        have hxrest : rest.getLast? = some x := by
          rw [show (':' :: rest) = [':'] ++ rest from rfl,
            List.getLast?_append_of_ne_nil _ hrest] at hx
          exact hx
        rcases matchTailB_mem hm x (mem_of_getLast?_some hxrest) with h | h
        · rw [h] at hxs; cases hxs
        · rw [h] at hxd; cases hxd
    · rw [matchTailB_cons, if_neg hc]

theorem findCatB_none_of_last {x : Char}
    (hxs : isPySpace x = false) (hxd : scoreDigit x = false) :
    ∀ l, l.getLast? = some x → ∀ acc, findCatB acc l = none := by
  intro l
  induction l with
  | nil => intro hx acc; rfl
  | cons c rest ih =>
    intro hx acc
    rw [findCatB_cons]
    cases hrest : rest with
    | nil =>
      subst hrest
      rfl
    | cons r0 rest2 =>
      subst hrest
      have hxrest : (r0 :: rest2).getLast? = some x := by
        rw [show (c :: r0 :: rest2) = [c] ++ (r0 :: rest2) from rfl,
          List.getLast?_append_of_ne_nil _ (by simp)] at hx
        exact hx
      rw [matchTailB_none_of_last hxs hxd _ hxrest]
      exact ih hxrest _

/-!
## `splitlines` and the reasoning-line scan
-/

theorem isLineBreak_ne_cr {c : Char} (h : isLineBreak c = false) : c ≠ '\r' := by
  intro hh
  subst hh
  simp [isLineBreak] at h

theorem splitlinesGo_no_break :
    ∀ l : List Char, (∀ c ∈ l, isLineBreak c = false) →
      ∀ acc : List Char, acc.reverse ++ l ≠ [] →
        splitlinesGo l acc = [acc.reverse ++ l] := by
  intro l
  induction l with
  | nil =>
    intro _ acc hne
    show (if acc = [] then [] else [acc.reverse]) = [acc.reverse ++ []]
    rw [if_neg (by simpa using hne)]
    simp
  | cons c rest ih =>
    intro hnb acc _
    have hc : isLineBreak c = false := hnb c (List.mem_cons_self _ _)
    cases rest with
    | nil =>
      rw [splitlinesGo_one, if_neg (by simp [hc])]
      simp
    | cons c2 rest2 =>
      rw [splitlinesGo_twoPlus, if_neg (by simp [isLineBreak_ne_cr hc]),
        if_neg (by simp [hc]),
        ih (fun x hx => hnb x (List.mem_cons_of_mem _ hx)) (c :: acc) (by simp)]
      simp

theorem pySplitlines_single {l : List Char} (hnb : ∀ c ∈ l, isLineBreak c = false)
    (hne : l ≠ []) : pySplitlines l = [l] := by
  unfold pySplitlines
  rw [splitlinesGo_no_break l hnb [] (by simpa using hne)]
  simp

theorem splitlinesGo_append_newline :
    ∀ l1 : List Char, (∀ c ∈ l1, isLineBreak c = false) →
      ∀ (acc l2 : List Char),
        splitlinesGo (l1 ++ '\n' :: l2) acc = (acc.reverse ++ l1) :: splitlinesGo l2 [] := by
  intro l1
  induction l1 with
  | nil =>
    intro _ acc l2
    rw [List.nil_append]
    cases l2 with
    | nil =>
      rw [splitlinesGo_one, if_pos (by decide), splitlinesGo_nilL, if_pos rfl]
      simp
    | cons c2 t =>
      rw [splitlinesGo_twoPlus, if_neg (by simp), if_pos (by decide)]
      simp
  | cons c rest ih =>
    intro hnb acc l2
    have hc : isLineBreak c = false := hnb c (List.mem_cons_self _ _)
    rw [List.cons_append]
    cases hde : rest ++ '\n' :: l2 with
    | nil => exact absurd hde (by simp)
    | cons c2 t =>
      rw [splitlinesGo_twoPlus, if_neg (by simp [isLineBreak_ne_cr hc]),
        if_neg (by simp [hc]), ← hde,
        ih (fun x hx => hnb x (List.mem_cons_of_mem _ hx)) (c :: acc) l2]
      simp

theorem pySplitlines_two {l1 l2 : List Char}
    (hnb1 : ∀ c ∈ l1, isLineBreak c = false) (hnb2 : ∀ c ∈ l2, isLineBreak c = false)
    (hne2 : l2 ≠ []) : pySplitlines (l1 ++ '\n' :: l2) = [l1, l2] := by
  unfold pySplitlines
  rw [splitlinesGo_append_newline l1 hnb1 [] l2,
    splitlinesGo_no_break l2 hnb2 [] (by simpa using hne2)]
  simp

theorem linesOf_two {line1 line2 : List Char}
    (hnb1 : ∀ c ∈ line1, isLineBreak c = false) (hnb2 : ∀ c ∈ line2, isLineBreak c = false)
    (hs1 : pyStrip line1 = line1) (hs2 : pyStrip line2 = line2)
    (hne1 : line1 ≠ []) (hne2 : line2 ≠ []) :
    linesOf (line1 ++ '\n' :: line2) = [line1, line2] := by
  unfold linesOf
  rw [pySplitlines_two hnb1 hnb2 hne2]
  simp [hs1, hs2, List.isEmpty_eq_false, hne1, hne2]

theorem matchKeywordCI_reasoning (tail : List Char) :
    matchKeywordCI ("reasoning:".data) (("Reasoning:".data) ++ tail) = some tail := rfl

theorem matchKeywordCI_justification_fail (tail : List Char) :
    matchKeywordCI ("justification:".data) (("Reasoning:".data) ++ tail) = none := rfl

theorem matchReasonLine_space {reason : List Char} (hne : reason ≠ [])
    (hhead : ∀ c, reason.head? = some c → isPySpace c = false) :
    matchReasonLine (("Reasoning:".data) ++ ' ' :: reason) = some reason := by
  show reasonAfterColon (' ' :: reason) = some reason
  unfold reasonAfterColon
  rw [List.dropWhile_cons_of_pos (by decide), dropWhile_eq_self_of_head hhead]
  simp [hne]

theorem matchReasonLine_bare : matchReasonLine ("Reasoning:".data) = none := rfl

/-!
## `processEntry` on a serialised shape-B block
-/

theorem renderShapeB_eq (cat : List Char) (d : Char) (reason : List Char) :
    renderShapeB cat d reason =
      (cat ++ ':' :: ' ' :: [d]) ++ '\n' ::
        (("Reasoning:".data) ++ (if reason.isEmpty then [] else ' ' :: reason)) := by
  unfold renderShapeB
  simp only [List.append_assoc]
  rfl

theorem line1B_nobreak {cat : List Char} {d : Char}
    (hcat : isClean cat = true) (hd : scoreDigit d = true) :
    ∀ c ∈ cat ++ ':' :: ' ' :: [d], isLineBreak c = false := by
  intro c hc
  rcases List.mem_append.mp hc with h | h
  · exact (isClean_parts hcat).2.2 c h
  · rcases List.mem_cons.mp h with rfl | h
    · decide
    · rcases List.mem_cons.mp h with rfl | h
      · decide
      · rcases List.mem_cons.mp h with rfl | h
        · exact scoreDigit_break hd
        · cases h

theorem line2B_nobreak {reason : List Char} (hr : reason = [] ∨ isClean reason = true) :
    ∀ c ∈ ("Reasoning:".data) ++ (if reason.isEmpty then [] else ' ' :: reason),
      isLineBreak c = false := by
  intro c hc
  rcases List.mem_append.mp hc with h | h
  · have hconc : ∀ x ∈ ("Reasoning:".data), isLineBreak x = false := by decide
    exact hconc c h
  · rcases hr with rfl | hclean
    · simp at h
    · have hne : reason.isEmpty = false := by
        simp [List.isEmpty_eq_false, (isClean_parts hclean).1]
      rw [hne] at h
      simp only [Bool.false_eq_true, if_false, ite_false] at h
      rcases List.mem_cons.mp h with rfl | h
      · decide
      · exact (isClean_parts hclean).2.2 c h

theorem line1B_strip {cat : List Char} {d : Char}
    (hcat : isClean cat = true) (hd : scoreDigit d = true) :
    pyStrip (cat ++ ':' :: ' ' :: [d]) = cat ++ ':' :: ' ' :: [d] := by
  obtain ⟨hcne, _, _⟩ := isClean_parts hcat
  apply pyStrip_eq_self
  · intro c hc
    cases cat with
    | nil => exact absurd rfl hcne
    | cons a t =>
      rw [List.cons_append] at hc
      cases hc
      exact isClean_head hcat rfl
  · intro c hc
    rw [List.getLast?_append_of_ne_nil _ (by simp)] at hc
    have : c = d := by
      have : (':' :: ' ' :: [d]).getLast? = some d := by simp
      rw [this] at hc
      cases hc
      rfl
    subst this
    exact scoreDigit_space hd

theorem line2B_strip {reason : List Char} (hr : reason = [] ∨ isClean reason = true) :
    pyStrip (("Reasoning:".data) ++ (if reason.isEmpty then [] else ' ' :: reason)) =
      ("Reasoning:".data) ++ (if reason.isEmpty then [] else ' ' :: reason) := by
  rcases hr with rfl | hclean
  · decide
  · have hne : reason ≠ [] := (isClean_parts hclean).1
    have hemp : reason.isEmpty = false := by simp [List.isEmpty_eq_false, hne]
    rw [hemp]
    simp only [Bool.false_eq_true, if_false, ite_false]
    apply pyStrip_eq_self
    · intro c hc
      cases hc
      decide
    · intro c hc
      rw [List.getLast?_append_of_ne_nil _ (by simp),
        show (' ' :: reason) = [' '] ++ reason from rfl,
        List.getLast?_append_of_ne_nil _ hne] at hc
      exact isClean_getLast hclean hc

theorem tryShapeB_renderB {cat : List Char} {d : Char} {reason : List Char}
    (hcat : isClean cat = true) (hd : scoreDigit d = true)
    (hr : reason = [] ∨ isClean reason = true) :
    tryShapeB (renderShapeB cat d reason) =
      .ok (some (cat, { score := digitVal d, reasoning := reason })) := by
  obtain ⟨hcne, hcstrip, _⟩ := isClean_parts hcat
  rw [renderShapeB_eq]
  unfold tryShapeB
  rw [linesOf_two (line1B_nobreak hcat hd) (line2B_nobreak hr)
    (line1B_strip hcat hd) (line2B_strip hr) (by cases cat <;> simp) (by simp)]
  have hfind : findCatB [] (cat ++ ':' :: ' ' :: [d]) = some (cat, d) := by
    rw [findCatB_boundary hcne
      (fun a b hab ha hb => matchTailB_append_none _ hb (List.mem_cons_self _ _))
      (matchTailB_glue hd) []]
    simp
  simp only [hfind]
  have hreason : firstReason [("Reasoning:".data) ++
      (if reason.isEmpty then [] else ' ' :: reason)] = reason := by
    rcases hr with rfl | hclean
    · rfl
    · have hne : reason ≠ [] := (isClean_parts hclean).1
      have hemp : reason.isEmpty = false := by simp [List.isEmpty_eq_false, hne]
      rw [hemp]
      simp only [Bool.false_eq_true, if_false, ite_false]
      unfold firstReason
      rw [matchReasonLine_space hne (fun c hc => isClean_head hclean hc)]
      exact (isClean_parts hclean).2.1
  simp only [hreason, hcstrip]

theorem renderShapeB_strip {cat : List Char} {d : Char} {reason : List Char}
    (hcat : isClean cat = true) (_hd : scoreDigit d = true)
    (hr : reason = [] ∨ isClean reason = true) :
    pyStrip (renderShapeB cat d reason) = renderShapeB cat d reason := by
  obtain ⟨hcne, _, _⟩ := isClean_parts hcat
  rw [renderShapeB_eq]
  apply pyStrip_eq_self
  · intro c hc
    cases cat with
    | nil => exact absurd rfl hcne
    | cons a t =>
      rw [List.cons_append, List.cons_append] at hc
      cases hc
      exact isClean_head hcat rfl
  · intro c hc
    rw [List.getLast?_append_of_ne_nil _ (by simp),
      show ('\n' :: (("Reasoning:".data) ++ (if reason.isEmpty then [] else ' ' :: reason))) =
        ['\n'] ++ (("Reasoning:".data) ++ (if reason.isEmpty then [] else ' ' :: reason))
        from rfl,
      List.getLast?_append_of_ne_nil _ (by simp)] at hc
    rcases hr with rfl | hclean
    · simp only [List.isEmpty_nil, if_true, ite_true, List.append_nil] at hc
      have : c = ':' := by
        have hlast : ("Reasoning:".data).getLast? = some ':' := by decide
        rw [hlast] at hc
        cases hc
        rfl
      subst this
      decide
    · have hne : reason ≠ [] := (isClean_parts hclean).1
      have hemp : reason.isEmpty = false := by simp [List.isEmpty_eq_false, hne]
      rw [hemp] at hc
      simp only [Bool.false_eq_true, if_false, ite_false] at hc
      rw [List.getLast?_append_of_ne_nil _ (by simp),
        show (' ' :: reason) = [' '] ++ reason from rfl,
        List.getLast?_append_of_ne_nil _ hne] at hc
      exact isClean_getLast hclean hc

theorem processEntry_renderB {cat : List Char} {d : Char} {reason : List Char}
    (hcat : isClean cat = true) (hpar : '(' ∉ cat) (hd : scoreDigit d = true)
    (hrpar : '(' ∉ reason) (hr : reason = [] ∨ isClean reason = true) :
    processEntry (renderShapeB cat d reason) =
      .ok (some (cat, { score := digitVal d, reasoning := reason })) := by
  obtain ⟨hcne, _, _⟩ := isClean_parts hcat
  have hne : (renderShapeB cat d reason).isEmpty = false := by
    rw [renderShapeB_eq]
    simp [List.isEmpty_eq_false]
  have hparen : '(' ∉ (renderShapeB cat d reason).map (fun c => if c = '\n' then ' ' else c) := by
    intro hm
    rcases List.mem_map.mp hm with ⟨x, hx, hfx⟩
    have hxpar : x = '(' := by
      by_cases hxn : x = '\n'
      · rw [if_pos hxn] at hfx; cases hfx
      · rw [if_neg hxn] at hfx; exact hfx
    subst hxpar
    rw [renderShapeB_eq] at hx
    rcases List.mem_append.mp hx with h | h
    · rcases List.mem_append.mp h with h | h
      · exact hpar h
      · rcases List.mem_cons.mp h with h | h
        · cases h
        · rcases List.mem_cons.mp h with h | h
          · cases h
          · rcases List.mem_cons.mp h with h | h
            · exact absurd h.symm (scoreDigit_lparen hd)
            · cases h
    · rcases List.mem_cons.mp h with h | h
      · cases h
      · rcases List.mem_append.mp h with h | h
        · have hconc : '(' ∉ ("Reasoning:".data) := by decide
          exact hconc h
        · by_cases hremp : reason.isEmpty = true
          · rw [if_pos hremp] at h
            cases h
          · rw [if_neg hremp] at h
            rcases List.mem_cons.mp h with h | h
            · cases h
            · exact hrpar h
  unfold processEntry
  simp only [renderShapeB_strip hcat hd hr, hne, Bool.false_eq_true, if_false, ite_false]
  rw [show ((renderShapeB cat d reason).map (fun c => if c = '\n' then ' ' else c)) =
    ((renderShapeB cat d reason).map (fun c => if c = '\n' then ' ' else c)) from rfl]
  have htA : tryShapeA ((renderShapeB cat d reason).map
      (fun c => if c = '\n' then ' ' else c)) = none := by
    unfold tryShapeA
    rw [findCatSplit_none_of_no_lparen hparen []]
  rw [htA, tryShapeB_renderB hcat hd hr]

/-!
## Totality of the parser: the `IndexError` branch is unreachable
-/

theorem splitlinesGo_acc_line :
    ∀ (l acc : List Char) (x : Char), x ∈ acc →
      ∃ line ∈ splitlinesGo l acc, x ∈ line := by
  intro l
  induction l with
  | nil =>
    intro acc x hx
    have hne : ¬ (acc = []) := fun h => by subst h; cases hx
    rw [splitlinesGo_nilL, if_neg hne]
    exact ⟨acc.reverse, by simp, List.mem_reverse.mpr hx⟩
  | cons c rest ih =>
    intro acc x hx
    cases rest with
    | nil =>
      rw [splitlinesGo_one]
      by_cases hbr : isLineBreak c = true
      · rw [if_pos hbr]
        exact ⟨acc.reverse, by simp, List.mem_reverse.mpr hx⟩
      · rw [if_neg hbr]
        exact ⟨(c :: acc).reverse, by simp,
          List.mem_reverse.mpr (List.mem_cons_of_mem _ hx)⟩
    | cons c2 rest2 =>
      rw [splitlinesGo_twoPlus]
      by_cases h1 : (c = '\r' && c2 = '\n') = true
      · rw [if_pos h1]
        exact ⟨acc.reverse, by simp, List.mem_reverse.mpr hx⟩
      · rw [if_neg h1]
        by_cases hbr : isLineBreak c = true
        · rw [if_pos hbr]
          exact ⟨acc.reverse, by simp, List.mem_reverse.mpr hx⟩
        · rw [if_neg hbr]
          exact ih (c :: acc) x (List.mem_cons_of_mem _ hx)

theorem linesOf_ne_nil {entry : List Char}
    (hne : entry ≠ []) (hhead : ∀ c, entry.head? = some c → isPySpace c = false) :
    linesOf entry ≠ [] := by
  cases entry with
  | nil => exact absurd rfl hne
  | cons c rest =>
    have hc : isPySpace c = false := hhead c rfl
    have hcbr : isLineBreak c = false := by
      cases hb : isLineBreak c
      · rfl
      · rw [isLineBreak_isPySpace hb] at hc; cases hc
    have hcr : ¬ (c = '\r') := by
      intro hh; subst hh; simp [isLineBreak] at hcbr
    have hbr : ¬ (isLineBreak c = true) := by simp [hcbr]
    have hstep : pySplitlines (c :: rest) = splitlinesGo rest [c] := by
      unfold pySplitlines
      cases rest with
      | nil =>
        rw [splitlinesGo_one, if_neg hbr, splitlinesGo_nilL, if_neg (by simp)]
      | cons c2 rest2 =>
        rw [splitlinesGo_twoPlus, if_neg (by simp [hcr]), if_neg hbr]
    rcases splitlinesGo_acc_line rest [c] c (by simp) with ⟨line, hline, hcl⟩
    have hmem : pyStrip line ∈ linesOf (c :: rest) := by
      unfold linesOf
      rw [hstep]
      refine List.mem_filter.mpr ⟨List.mem_map_of_mem pyStrip hline, ?_⟩
      simp [List.isEmpty_eq_false]
      exact pyStrip_ne_nil_of_mem hcl hc
    exact List.ne_nil_of_mem hmem

theorem processEntry_eq (e : List Char) :
    processEntry e =
      (if (pyStrip e).isEmpty = true then .ok none
       else
         match tryShapeA ((pyStrip e).map (fun c => if c = '\n' then ' ' else c)) with
         | some kv => .ok (some kv)
         | none => tryShapeB (pyStrip e)) := rfl

theorem tryShapeB_eq_cons {entry l0 : List Char} {rest : List (List Char)}
    (h : linesOf entry = l0 :: rest) :
    tryShapeB entry =
      (match findCatB [] l0 with
       | some (cat, d) =>
         .ok (some (pyStrip cat, { score := digitVal d, reasoning := firstReason rest }))
       | none => .ok none) := by
  unfold tryShapeB
  rw [h]

theorem processEntry_ok (e : List Char) : ∃ r, processEntry e = .ok r := by
  rw [processEntry_eq]
  by_cases hemp : (pyStrip e).isEmpty = true
  · rw [if_pos hemp]
    exact ⟨none, rfl⟩
  · rw [if_neg hemp]
    cases htA : tryShapeA ((pyStrip e).map (fun c => if c = '\n' then ' ' else c)) with
    | some kv => exact ⟨some kv, rfl⟩
    | none =>
      have hne : pyStrip e ≠ [] := by
        intro hh
        rw [hh] at hemp
        exact hemp rfl
      cases hlines : linesOf (pyStrip e) with
      | nil =>
        exact absurd hlines
          (linesOf_ne_nil hne (fun c hc => pyStrip_head_not_space hc))
      | cons l0 rest =>
        rw [tryShapeB_eq_cons hlines]
        cases hfind : findCatB [] l0 with
        | some p =>
          obtain ⟨cat, d⟩ := p
          exact ⟨some (pyStrip cat, { score := digitVal d, reasoning := firstReason rest }), rfl⟩
        | none => exact ⟨none, rfl⟩

theorem parseBlocks_ok (bs : List (List Char)) :
    ∀ d, ∃ d2, parseBlocks bs d = .ok d2 := by
  induction bs with
  | nil => intro d; exact ⟨d, rfl⟩
  | cons e rest ih =>
    intro d
    unfold parseBlocks
    rcases processEntry_ok e with ⟨r, hr⟩
    rw [hr]
    cases r with
    | none => exact ih d
    | some kv => exact ih (dictInsert kv.1 kv.2 d)

theorem parse_total (t : List Char) : ∃ d, parse_judge_feedback t = .ok d :=
  parseBlocks_ok (splitBlank (pyStrip t)) []

theorem parseBlocks_junk {junk : List Char} (hj : processEntry junk = .ok none) :
    ∀ (pre post : List (List Char)) (d : Feedback),
      parseBlocks (pre ++ junk :: post) d = parseBlocks (pre ++ post) d := by
  intro pre
  induction pre with
  | nil =>
    intro post d
    rw [List.nil_append, List.nil_append]
    conv_lhs => unfold parseBlocks
    rw [hj]
  | cons e pre2 ih =>
    intro post d
    rw [List.cons_append, List.cons_append]
    conv_lhs => unfold parseBlocks
    conv_rhs => unfold parseBlocks
    cases hp : processEntry e with
    | error u => rfl
    | ok r =>
      cases r with
      | none => exact ih post d
      | some kv => exact ih post (dictInsert kv.1 kv.2 d)

/-!
## Dict lemmas, the score invariant, `story_editor` and the loop decision
-/

theorem dictInsert_mem {k : List Char} {v : CritiqueEntry} {p : List Char × CritiqueEntry} :
    ∀ d : Feedback, p ∈ dictInsert k v d → p = (k, v) ∨ p ∈ d := by
  intro d
  induction d with
  | nil =>
    intro hp
    simp [dictInsert] at hp
    exact Or.inl hp
  | cons q rest ih =>
    obtain ⟨k0, v0⟩ := q
    intro hp
    unfold dictInsert at hp
    by_cases hk : k0 = k
    · rw [if_pos hk] at hp
      rcases List.mem_cons.mp hp with rfl | hp
      · subst hk
        exact Or.inl rfl
      · exact Or.inr (List.mem_cons_of_mem _ hp)
    · rw [if_neg hk] at hp
      rcases List.mem_cons.mp hp with rfl | hp
      · exact Or.inr (List.mem_cons_self _ _)
      · rcases ih hp with h | h
        · exact Or.inl h
        · exact Or.inr (List.mem_cons_of_mem _ h)

theorem dictInsert_keys_of_mem {k : List Char} {v : CritiqueEntry} :
    ∀ d : Feedback, k ∈ d.map Prod.fst →
      (dictInsert k v d).map Prod.fst = d.map Prod.fst := by
  intro d
  induction d with
  | nil => intro h; cases h
  | cons q rest ih =>
    obtain ⟨k0, v0⟩ := q
    intro h
    unfold dictInsert
    by_cases hk : k0 = k
    · rw [if_pos hk]
      simp
    · rw [if_neg hk]
      simp only [List.map_cons]
      have hmem : k ∈ rest.map Prod.fst := by
        rw [List.map_cons] at h
        rcases List.mem_cons.mp h with h1 | h1
        · exact absurd h1.symm hk
        · exact h1
      rw [ih hmem]

theorem lookupEntry_dictInsert (k : List Char) (v : CritiqueEntry) :
    ∀ d : Feedback, lookupEntry k (dictInsert k v d) = some v := by
  intro d
  induction d with
  | nil => simp [dictInsert, lookupEntry]
  | cons q rest ih =>
    obtain ⟨k0, v0⟩ := q
    unfold dictInsert
    by_cases hk : k0 = k
    · rw [if_pos hk]
      unfold lookupEntry
      rw [if_pos hk]
    · rw [if_neg hk]
      unfold lookupEntry
      rw [if_neg hk]
      exact ih

theorem dictInsert_append {k : List Char} {v : CritiqueEntry} :
    ∀ d : Feedback, k ∉ d.map Prod.fst → dictInsert k v d = d ++ [(k, v)] := by
  intro d
  induction d with
  | nil => intro _; rfl
  | cons q rest ih =>
    obtain ⟨k0, v0⟩ := q
    intro h
    have hk : ¬ (k0 = k) := fun hh =>
      h (by rw [List.map_cons, hh]; exact List.mem_cons_self _ _)
    unfold dictInsert
    rw [if_neg hk, ih (fun hm =>
      h (by rw [List.map_cons]; exact List.mem_cons_of_mem _ hm))]
    rfl

theorem matchTail_score {l : List Char} {d : Char} {r : List Char}
    (h : matchTail l = some (d, r)) : scoreDigit d = true := by
  unfold matchTail at h
  split at h
  · cases h
  · split at h
    · split at h
      · cases h
      · split at h
        · split at h
          · cases h
          · split at h
            · split at h
              · cases h
                assumption
              · cases h
            · cases h
        · cases h
    · cases h

theorem findCatSplit_score {d : Char} {cat r : List Char} :
    ∀ (l acc : List Char), findCatSplit acc l = some (cat, d, r) → scoreDigit d = true := by
  intro l
  induction l with
  | nil => intro acc h; cases h
  | cons c rest ih =>
    intro acc h
    unfold findCatSplit at h
    cases hm : matchTail rest with
    | some p =>
      rw [hm] at h
      obtain ⟨d0, r0⟩ := p
      cases h
      exact matchTail_score hm
    | none =>
      rw [hm] at h
      exact ih (c :: acc) h

theorem matchTailB_score {l : List Char} {d : Char}
    (h : matchTailB l = some d) : scoreDigit d = true := by
  unfold matchTailB at h
  split at h
  · cases h
  · split at h
    · split at h
      · cases h
      · split at h
        · rename_i hcond
          cases h
          exact ((Bool.and_eq_true _ _).mp hcond).1
        · cases h
    · cases h

theorem findCatB_score {d : Char} {cat : List Char} :
    ∀ (l acc : List Char), findCatB acc l = some (cat, d) → scoreDigit d = true := by
  intro l
  induction l with
  | nil => intro acc h; cases h
  | cons c rest ih =>
    intro acc h
    unfold findCatB at h
    cases hm : matchTailB rest with
    | some d0 =>
      rw [hm] at h
      cases h
      exact matchTailB_score hm
    | none =>
      rw [hm] at h
      exact ih (c :: acc) h

theorem processEntry_score {e : List Char} {k : List Char} {v : CritiqueEntry}
    (h : processEntry e = .ok (some (k, v))) : 1 ≤ v.score ∧ v.score ≤ 4 := by
  rw [processEntry_eq] at h
  split at h
  · cases h
  · split at h
    · rename_i kv htA
      cases h
      unfold tryShapeA at htA
      cases hf : findCatSplit [] ((pyStrip e).map (fun c => if c = '\n' then ' ' else c)) with
      | none => rw [hf] at htA; cases htA
      | some p =>
        rw [hf] at htA
        obtain ⟨cat, d, r⟩ := p
        cases htA
        exact digitVal_bounds (findCatSplit_score _ _ hf)
    · rename_i htA
      unfold tryShapeB at h
      split at h
      · cases h
      · rename_i l0 rest hlines
        cases hf : findCatB [] l0 with
        | none => rw [hf] at h; cases h
        | some p =>
          rw [hf] at h
          obtain ⟨cat, d⟩ := p
          cases h
          exact digitVal_bounds (findCatB_score _ _ hf)

theorem parseBlocks_score :
    ∀ (bs : List (List Char)) (d d2 : Feedback),
      parseBlocks bs d = .ok d2 →
      (∀ p ∈ d, 1 ≤ p.2.score ∧ p.2.score ≤ 4) →
      ∀ p ∈ d2, 1 ≤ p.2.score ∧ p.2.score ≤ 4 := by
  intro bs
  induction bs with
  | nil =>
    intro d d2 h hd
    cases h
    exact hd
  | cons e rest ih =>
    intro d d2 h hd
    unfold parseBlocks at h
    cases hp : processEntry e with
    | error u => rw [hp] at h; cases h
    | ok r =>
      rw [hp] at h
      cases r with
      | none => exact ih d d2 h hd
      | some kv =>
        obtain ⟨k, v⟩ := kv
        refine ih (dictInsert k v d) d2 h ?_
        intro p hpmem
        rcases dictInsert_mem _ hpmem with rfl | hpmem
        · exact processEntry_score hp
        · exact hd p hpmem

theorem parse_score {t : List Char} {d : Feedback}
    (h : parse_judge_feedback t = .ok d) :
    ∀ p ∈ d, 1 ≤ p.2.score ∧ p.2.score ≤ 4 :=
  parseBlocks_score _ [] d h (by intro p hp; cases hp)

theorem issuesOf_eq_map_filter (f : Feedback) :
    issuesOf f =
      (f.filter (fun p => decide (p.2.score < 4))).map (fun p => renderIssue p.1 p.2) := by
  induction f with
  | nil => rfl
  | cons p rest ih =>
    unfold issuesOf at ih ⊢
    simp only [List.filterMap_cons, List.filter_cons]
    by_cases hp : p.2.score < 4
    · simp [hp, ih]
    · simp [hp, ih]

theorem issuesOf_empty_iff (f : Feedback) :
    issuesOf f = [] ↔ ∀ p ∈ f, ¬ (p.2.score < 4) := by
  rw [issuesOf_eq_map_filter, List.map_eq_nil_iff, List.filter_eq_nil_iff]
  constructor
  · intro h p hp
    have := h p hp
    simpa using this
  · intro h p hp
    simpa using h p hp

theorem filter_low_empty_iff (f : Feedback) :
    (f.filter (fun p => decide (p.2.score < 4))).isEmpty = true ↔
      ∀ p ∈ f, ¬ (p.2.score < 4) := by
  rw [List.isEmpty_iff, List.filter_eq_nil_iff]
  constructor
  · intro h p hp
    simpa using h p hp
  · intro h p hp
    simpa using h p hp

theorem story_editor_eq_inl {prompt story : List Char} {f : Feedback}
    (h : ∀ p ∈ f, ¬ (p.2.score < 4)) : story_editor prompt story f = Sum.inl story := by
  unfold story_editor
  rw [if_pos (by rw [List.isEmpty_iff]; exact (issuesOf_empty_iff f).mpr h)]

theorem story_editor_eq_inr {prompt story : List Char} {f : Feedback}
    (h : ∃ p ∈ f, p.2.score < 4) :
    story_editor prompt story f = Sum.inr (revisionRequest prompt story f) := by
  unfold story_editor
  rw [if_neg]
  rw [List.isEmpty_iff]
  intro hnil
  rcases h with ⟨p, hp, hlow⟩
  exact (issuesOf_empty_iff f).mp hnil p hp hlow

theorem loopStep_converged_iff (topic story : List Char) (parsed : Feedback) :
    loopStep topic story parsed = .converged story ↔ ∀ p ∈ parsed, ¬ (p.2.score < 4) := by
  unfold loopStep
  by_cases hc : (parsed.filter (fun p => decide (p.2.score < 4))).isEmpty = true
  · rw [if_pos hc]
    constructor
    · intro _
      exact (filter_low_empty_iff parsed).mp hc
    · intro _
      rfl
  · rw [if_neg hc]
    constructor
    · intro h
      cases h
    · intro h
      exact absurd ((filter_low_empty_iff parsed).mpr h) hc

theorem loopStep_revise_iff (topic story : List Char) (parsed : Feedback) :
    (∃ req, loopStep topic story parsed = .revise req) ↔ ∃ p ∈ parsed, p.2.score < 4 := by
  unfold loopStep
  by_cases hc : (parsed.filter (fun p => decide (p.2.score < 4))).isEmpty = true
  · rw [if_pos hc]
    constructor
    · intro ⟨req, hreq⟩
      cases hreq
    · intro ⟨p, hp, hlow⟩
      exact absurd ((filter_low_empty_iff parsed).mp hc p hp) (by simp [hlow])
  · rw [if_neg hc]
    constructor
    · intro _
      by_contra hnone
      push_neg at hnone
      exact hc ((filter_low_empty_iff parsed).mpr (fun p hp => by
        intro hlow
        exact absurd hlow (by simpa using hnone p hp)))
    · intro _
      exact ⟨revisionRequest topic story parsed, rfl⟩

theorem loopStep_revise_eq {topic story : List Char} {parsed : Feedback}
    (h : ∃ p ∈ parsed, p.2.score < 4) :
    loopStep topic story parsed = .revise (revisionRequest topic story parsed) := by
  unfold loopStep
  rw [if_neg]
  intro hc
  rcases h with ⟨p, hp, hlow⟩
  exact (filter_low_empty_iff parsed).mp hc p hp hlow

theorem renderIssue_eq (cat : List Char) (e : CritiqueEntry) :
    renderIssue cat e = ("- ".data) ++ claimedIssueText cat e := by
  unfold renderIssue claimedIssueText
  simp [List.append_assoc]

/-!
## Round trip: a blank-line join of good blocks splits back into its blocks
-/

theorem nlOk_of_no_newline {l : List Char} (h : '\n' ∉ l) : nlOk l = true := by
  induction l with
  | nil => rfl
  | cons c rest ih =>
    unfold nlOk
    rw [if_neg (fun hh => h (by rw [← hh]; exact List.mem_cons_self _ _))]
    exact ih (fun hm => h (List.mem_cons_of_mem _ hm))

theorem nlOk_append_of_no_newline {a b : List Char} (ha : '\n' ∉ a) (hb : nlOk b = true) :
    nlOk (a ++ b) = true := by
  induction a with
  | nil => exact hb
  | cons c rest ih =>
    rw [List.cons_append]
    unfold nlOk
    rw [if_neg (fun hh => ha (by rw [← hh]; exact List.mem_cons_self _ _))]
    exact ih (fun hm => ha (List.mem_cons_of_mem _ hm))

theorem matchGap_cons_nonws {c : Char} {rest : List Char} (hc : isPySpace c = false) :
    matchGap (c :: rest) = none := by
  unfold matchGap
  rw [List.takeWhile_cons_of_neg (by simp [hc])]
  rfl

theorem matchGap_gap {c : Char} {rest : List Char} (hc : isPySpace c = false) :
    matchGap ('\n' :: c :: rest) = some (c :: rest) := by
  unfold matchGap
  rw [List.takeWhile_cons_of_pos (by decide), List.takeWhile_cons_of_neg (by simp [hc]),
    List.dropWhile_cons_of_pos (by decide), List.dropWhile_cons_of_neg (by simp [hc])]
  rfl

theorem goSplit_nlOk {b : List Char} (h : nlOk b = true) :
    ∀ acc, goSplit b acc = [acc.reverse ++ b] := by
  induction b with
  | nil =>
    intro acc
    rw [goSplit_nil]
    simp
  | cons c rest ih =>
    intro acc
    by_cases hc : c = '\n'
    · subst hc
      unfold nlOk at h
      rw [if_pos rfl] at h
      cases rest with
      | nil => cases h
      | cons c2 rest2 =>
        have hc2 : isPySpace c2 = false := by
          have := ((Bool.and_eq_true _ _).mp h).1
          simpa using this
        have hrest : nlOk (c2 :: rest2) = true := ((Bool.and_eq_true _ _).mp h).2
        rw [goSplit_cons_newline_none (matchGap_cons_nonws hc2), ih hrest ('\n' :: acc)]
        simp
    · unfold nlOk at h
      rw [if_neg hc] at h
      rw [goSplit_cons_other hc, ih h (c :: acc)]
      simp

theorem goSplit_join {b : List Char} (hb : nlOk b = true) :
    ∀ {c : Char} {tl : List Char}, isPySpace c = false →
    ∀ acc, goSplit (b ++ '\n' :: '\n' :: c :: tl) acc =
      (acc.reverse ++ b) :: goSplit (c :: tl) [] := by
  induction b with
  | nil =>
    intro c tl hc acc
    rw [List.nil_append, goSplit_cons_newline_some (matchGap_gap hc) acc]
    simp
  | cons x rest ih =>
    intro c tl hc acc
    rw [List.cons_append]
    by_cases hx : x = '\n'
    · subst hx
      unfold nlOk at hb
      rw [if_pos rfl] at hb
      cases rest with
      | nil => cases hb
      | cons c2 rest2 =>
        have hc2 : isPySpace c2 = false := by
          have := ((Bool.and_eq_true _ _).mp hb).1
          simpa using this
        have hrest : nlOk (c2 :: rest2) = true := ((Bool.and_eq_true _ _).mp hb).2
        rw [goSplit_cons_newline_none
          (by rw [List.cons_append]; exact matchGap_cons_nonws hc2) acc]
        rw [ih hrest hc ('\n' :: acc)]
        simp
    · rw [goSplit_cons_other hx]
      unfold nlOk at hb
      rw [if_neg hx] at hb
      rw [ih hb hc (x :: acc)]
      simp

theorem goodBlock_intro {b : List Char} (hne : b ≠ []) (hs : pyStrip b = b)
    (hnl : nlOk b = true) : goodBlock b = true := by
  cases b with
  | nil => exact absurd rfl hne
  | cons a t =>
    have ha : isPySpace a = false := pyStrip_head_not_space (l := a :: t) (by rw [hs]; rfl)
    obtain ⟨x, hx⟩ := getLast?_some_of_ne_nil (l := a :: t) (by simp)
    have hxs : isPySpace x = false := pyStrip_getLast_not_space (l := a :: t) (by rw [hs, hx])
    unfold goodBlock
    rw [hx]
    simp [ha, hxs, hnl]

theorem goodBlock_parts {b : List Char} (h : goodBlock b = true) :
    b ≠ [] ∧ (∀ c, b.head? = some c → isPySpace c = false) ∧
      (∀ c, b.getLast? = some c → isPySpace c = false) ∧ nlOk b = true := by
  unfold goodBlock at h
  simp only [Bool.and_eq_true] at h
  obtain ⟨⟨⟨h1, h2⟩, h3⟩, h4⟩ := h
  refine ⟨by simpa [List.isEmpty_eq_false] using h1, ?_, ?_, h4⟩
  · intro c hc
    rw [hc] at h2
    simpa using h2
  · intro c hc
    rw [hc] at h3
    simpa using h3

theorem joinBlocks_cons_cons (b b2 : List Char) (rest : List (List Char)) :
    joinBlocks (b :: b2 :: rest) = b ++ '\n' :: '\n' :: joinBlocks (b2 :: rest) := rfl

theorem joinBlocks_cons_ne_nil {b : List Char} (hb : b ≠ []) (bs : List (List Char)) :
    joinBlocks (b :: bs) ≠ [] := by
  cases bs with
  | nil => exact hb
  | cons b2 rest =>
    rw [joinBlocks_cons_cons]
    simp [hb]

theorem joinBlocks_head_not_ws :
    ∀ bs : List (List Char), (∀ b ∈ bs, goodBlock b = true) →
      ∀ c, (joinBlocks bs).head? = some c → isPySpace c = false := by
  intro bs
  cases bs with
  | nil => intro _ c hc; cases hc
  | cons b rest =>
    intro hg c hc
    have hgb := goodBlock_parts (hg b (List.mem_cons_self _ _))
    cases rest with
    | nil => exact hgb.2.1 c hc
    | cons b2 rest2 =>
      rw [joinBlocks_cons_cons] at hc
      cases hb : b with
      | nil => exact absurd hb hgb.1
      | cons a t =>
        subst hb
        rw [List.cons_append] at hc
        simp only [List.head?_cons, Option.some.injEq] at hc
        subst hc
        exact hgb.2.1 a rfl

theorem joinBlocks_getLast_not_ws :
    ∀ bs : List (List Char), (∀ b ∈ bs, goodBlock b = true) →
      ∀ c, (joinBlocks bs).getLast? = some c → isPySpace c = false := by
  intro bs
  induction bs with
  | nil => intro _ c hc; cases hc
  | cons b rest ih =>
    intro hg c hc
    cases rest with
    | nil => exact (goodBlock_parts (hg b (List.mem_cons_self _ _))).2.2.1 c hc
    | cons b2 rest2 =>
      have hb2ne : b2 ≠ [] := (goodBlock_parts (hg b2 (by simp))).1
      have hJne : joinBlocks (b2 :: rest2) ≠ [] := joinBlocks_cons_ne_nil hb2ne rest2
      rw [joinBlocks_cons_cons,
        List.getLast?_append_of_ne_nil _ (by simp),
        show ('\n' :: '\n' :: joinBlocks (b2 :: rest2)) =
          ['\n', '\n'] ++ joinBlocks (b2 :: rest2) from rfl,
        List.getLast?_append_of_ne_nil _ hJne] at hc
      exact ih (fun x hx => hg x (List.mem_cons_of_mem _ hx)) c hc

theorem splitBlank_joinBlocks :
    ∀ bs : List (List Char), bs ≠ [] → (∀ b ∈ bs, goodBlock b = true) →
      splitBlank (joinBlocks bs) = bs := by
  intro bs
  induction bs with
  | nil => intro h _; exact absurd rfl h
  | cons b rest ih =>
    intro _ hg
    have hgb := goodBlock_parts (hg b (List.mem_cons_self _ _))
    cases rest with
    | nil =>
      unfold splitBlank
      rw [show joinBlocks [b] = b from rfl, goSplit_nlOk hgb.2.2.2 []]
      simp
    | cons b2 rest2 =>
      have hgb2 := goodBlock_parts (hg b2 (by simp))
      obtain ⟨c2, t2, hb2⟩ : ∃ c2 t2, joinBlocks (b2 :: rest2) = c2 :: t2 ∧
          isPySpace c2 = false := by
        cases hb2' : b2 with
        | nil => exact absurd hb2' hgb2.1
        | cons a t =>
          cases rest2 with
          | nil =>
            refine ⟨a, t, rfl, ?_⟩
            exact hgb2.2.1 a (by rw [hb2']; rfl)
          | cons b3 rest3 =>
            rw [joinBlocks_cons_cons, List.cons_append]
            refine ⟨a, t ++ '\n' :: '\n' :: joinBlocks (b3 :: rest3), rfl, ?_⟩
            exact hgb2.2.1 a (by rw [hb2']; rfl)
      unfold splitBlank
      rw [joinBlocks_cons_cons, hb2.1, goSplit_join hgb.2.2.2 hb2.2 []]
      rw [← hb2.1]
      have := ih (by simp) (fun x hx => hg x (List.mem_cons_of_mem _ hx))
      unfold splitBlank at this
      rw [this]
      simp

theorem no_newline_of_nobreak {l : List Char} (h : ∀ c ∈ l, isLineBreak c = false) :
    '\n' ∉ l := by
  intro hm
  have := h '\n' hm
  simp [isLineBreak] at this

theorem renderShapeB_ne_nil {cat : List Char} {d : Char} {reason : List Char}
    (hcat : cat ≠ []) : renderShapeB cat d reason ≠ [] := by
  rw [renderShapeB_eq]
  cases cat with
  | nil => exact absurd rfl hcat
  | cons a t => simp

theorem renderShapeB_nlOk {cat : List Char} {d : Char} {reason : List Char}
    (hcat : isClean cat = true) (hd : scoreDigit d = true)
    (hr : reason = [] ∨ isClean reason = true) :
    nlOk (renderShapeB cat d reason) = true := by
  rw [renderShapeB_eq]
  apply nlOk_append_of_no_newline
  · exact no_newline_of_nobreak (line1B_nobreak hcat hd)
  · have hl2 : ('\n' :: (("Reasoning:".data) ++
        (if reason.isEmpty then [] else ' ' :: reason))) =
      '\n' :: 'R' :: (("easoning:".data) ++
        (if reason.isEmpty then [] else ' ' :: reason)) := rfl
    rw [hl2]
    unfold nlOk
    rw [if_pos rfl]
    have hnn : '\n' ∉ ('R' :: (("easoning:".data) ++
        (if reason.isEmpty then [] else ' ' :: reason))) := by
      have := line2B_nobreak hr
      rw [show (("Reasoning:".data) ++ (if reason.isEmpty then [] else ' ' :: reason)) =
        'R' :: (("easoning:".data) ++ (if reason.isEmpty then [] else ' ' :: reason))
        from rfl] at this
      exact no_newline_of_nobreak this
    rw [nlOk_of_no_newline hnn]
    show (!isPySpace 'R' && true) = true
    decide

theorem renderItem_goodBlock {it : Item} (h : wfItem it = true) :
    goodBlock (renderItem it) = true := by
  obtain ⟨s, cat, d, r⟩ := it
  cases s with
  | A =>
    unfold wfItem at h
    simp only [Bool.and_eq_true, Bool.not_eq_true', decide_eq_false_iff_not] at h
    obtain ⟨⟨⟨hcat, hpar⟩, hd⟩, hr⟩ := h
    exact goodBlock_intro renderShapeA_ne_nil (renderShapeA_strip hcat hr)
      (nlOk_of_no_newline (renderShapeA_no_newline hcat hd hr))
  | B =>
    unfold wfItem at h
    simp only [Bool.and_eq_true, Bool.not_eq_true', decide_eq_false_iff_not,
      Bool.or_eq_true] at h
    obtain ⟨⟨⟨⟨hcat, hpar⟩, hd⟩, hrpar⟩, hre⟩ := h
    have hre2 : r = [] ∨ isClean r = true := by
      rcases hre with h1 | h1
      · exact Or.inl (by simpa [List.isEmpty_iff] using h1)
      · exact Or.inr h1
    exact goodBlock_intro (renderShapeB_ne_nil (isClean_parts hcat).1)
      (renderShapeB_strip hcat hd hre2) (renderShapeB_nlOk hcat hd hre2)

theorem processEntry_renderItem {it : Item} (h : wfItem it = true) :
    processEntry (renderItem it) = .ok (some (itemPair it)) := by
  obtain ⟨s, cat, d, r⟩ := it
  cases s with
  | A =>
    unfold wfItem at h
    simp only [Bool.and_eq_true, Bool.not_eq_true', decide_eq_false_iff_not] at h
    obtain ⟨⟨⟨hcat, hpar⟩, hd⟩, hr⟩ := h
    exact processEntry_renderA hcat hpar hd hr
  | B =>
    unfold wfItem at h
    simp only [Bool.and_eq_true, Bool.not_eq_true', decide_eq_false_iff_not,
      Bool.or_eq_true] at h
    obtain ⟨⟨⟨⟨hcat, hpar⟩, hd⟩, hrpar⟩, hre⟩ := h
    have hre2 : r = [] ∨ isClean r = true := by
      rcases hre with h1 | h1
      · exact Or.inl (by simpa [List.isEmpty_iff] using h1)
      · exact Or.inr h1
    exact processEntry_renderB hcat hpar hd hrpar hre2

theorem forall2_processEntry {items : List Item}
    (h : ∀ it ∈ items, wfItem it = true) :
    List.Forall₂ (fun b p => processEntry b = .ok (some p))
      (items.map renderItem) (items.map itemPair) := by
  induction items with
  | nil => exact List.Forall₂.nil
  | cons it rest ih =>
    simp only [List.map_cons]
    exact List.Forall₂.cons (processEntry_renderItem (h it (List.mem_cons_self _ _)))
      (ih (fun x hx => h x (List.mem_cons_of_mem _ hx)))

theorem parseBlocks_pairs :
    ∀ {bs : List (List Char)} {ps : Feedback},
      List.Forall₂ (fun b p => processEntry b = .ok (some p)) bs ps →
      (ps.map Prod.fst).Nodup →
      ∀ d : Feedback, (∀ p ∈ ps, p.1 ∉ d.map Prod.fst) →
        parseBlocks bs d = .ok (d ++ ps) := by
  intro bs ps h
  induction h with
  | nil =>
    intro _ d _
    simp [parseBlocks]
  | cons h1 h2 ih =>
    rename_i b p bs2 ps2
    obtain ⟨k, v⟩ := p
    intro hnd d hdisj
    simp only [List.map_cons, List.nodup_cons] at hnd
    obtain ⟨hknotin, hndtail⟩ := hnd
    conv_lhs => unfold parseBlocks
    rw [h1]
    show parseBlocks bs2 (dictInsert k v d) = Except.ok (d ++ (k, v) :: ps2)
    rw [dictInsert_append d (hdisj (k, v) (List.mem_cons_self _ _))]
    have hdisj2 : ∀ q ∈ ps2, q.1 ∉ (d ++ [(k, v)]).map Prod.fst := by
      intro q hq hmem
      rw [List.map_append] at hmem
      rcases List.mem_append.mp hmem with hm | hm
      · exact hdisj q (List.mem_cons_of_mem _ hq) hm
      · simp only [List.map_cons, List.map_nil, List.mem_singleton] at hm
        exact hknotin (hm ▸ List.mem_map_of_mem Prod.fst hq)
    rw [ih hndtail (d ++ [(k, v)]) hdisj2]
    simp

theorem parse_serializeCritiques {items : List Item}
    (hwf : ∀ it ∈ items, wfItem it = true)
    (hnd : (items.map itemKey).Nodup) :
    parse_judge_feedback (serializeCritiques items) = .ok (items.map itemPair) := by
  cases items with
  | nil => rfl
  | cons it0 rest =>
    have hgood : ∀ b ∈ (it0 :: rest).map renderItem, goodBlock b = true := by
      intro b hb
      rcases List.mem_map.mp hb with ⟨it, hit, rfl⟩
      exact renderItem_goodBlock (hwf it hit)
    have hne : (it0 :: rest).map renderItem ≠ [] := by simp
    have hstrip : pyStrip (joinBlocks ((it0 :: rest).map renderItem)) =
        joinBlocks ((it0 :: rest).map renderItem) :=
      pyStrip_eq_self (joinBlocks_head_not_ws _ hgood) (joinBlocks_getLast_not_ws _ hgood)
    unfold parse_judge_feedback serializeCritiques
    rw [hstrip, splitBlank_joinBlocks _ hne hgood]
    have hnd2 : (((it0 :: rest).map itemPair).map Prod.fst).Nodup := by
      rw [List.map_map]
      have hcomp : (Prod.fst ∘ itemPair) = itemKey := rfl
      rw [hcomp]
      exact hnd
    have := parseBlocks_pairs (forall2_processEntry hwf) hnd2 [] (by intro p hp hmem; cases hmem)
    simpa using this

/-!
## Blocks with an out-of-range score token, and the reasoning-less inline block
-/

theorem matchTail_sp (l : List Char) : matchTail (' ' :: l) = matchTail l := by
  unfold matchTail
  rw [List.dropWhile_cons_of_pos (by decide)]

theorem matchTail_cons_nonlparen {c : Char} (hs : isPySpace c = false)
    (hc : ¬ (c = '(')) (rest : List Char) : matchTail (c :: rest) = none := by
  unfold matchTail
  rw [List.dropWhile_cons_of_neg (by simp [hs])]
  simp [hc]

theorem findCatSplit_cons (acc : List Char) (c : Char) (l : List Char) :
    findCatSplit acc (c :: l) =
      match matchTail l with
      | some (d, r) => some ((c :: acc).reverse, d, r)
      | none => findCatSplit (c :: acc) l := rfl

theorem findCatSplit_none_of_all {l : List Char}
    (h : ∀ a b, l = a ++ b → a ≠ [] → matchTail b = none) :
    ∀ acc, findCatSplit acc l = none := by
  induction l with
  | nil => intro acc; rfl
  | cons c rest ih =>
    intro acc
    have h0 : matchTail rest = none := h [c] rest rfl (by simp)
    rw [findCatSplit_cons, h0]
    exact ih (fun a b hab ha => h (c :: a) b (by rw [hab]; rfl) (by simp)) _

theorem matchTail_lparen_no_reason {d : Char} (hd : scoreDigit d = true) :
    matchTail ('(' :: d :: ')' :: []) = none := by
  have h2 : isPySpace '(' = false := by decide
  have h3 : isPySpace d = false := scoreDigit_space hd
  have h4 : isPySpace ')' = false := by decide
  unfold matchTail
  simp only [List.dropWhile_cons, h2, h3, h4, Bool.false_eq_true, ite_true, ite_false,
    if_true, if_false]
  simp only [hd, ite_true, if_true]
  rfl

theorem matchTail_colon_only {d : Char} (hd : scoreDigit d = true) :
    matchTail ('(' :: d :: ')' :: [':']) = some (d, [':']) := by
  have h2 : isPySpace '(' = false := by decide
  have h3 : isPySpace d = false := scoreDigit_space hd
  have h4 : isPySpace ')' = false := by decide
  unfold matchTail
  simp only [List.dropWhile_cons, h2, h3, h4, Bool.false_eq_true, ite_true, ite_false,
    if_true, if_false]
  simp only [hd, ite_true, if_true]
  rfl

theorem matchTail_lparen_badHead {th : Char} {tt : List Char} (rest : List Char)
    (hs : isPySpace th = false) (hd : scoreDigit th = false) :
    matchTail ('(' :: ((th :: tt) ++ rest)) = none := by
  have h2 : isPySpace '(' = false := by decide
  unfold matchTail
  rw [List.cons_append]
  simp only [List.dropWhile_cons, h2, hs, Bool.false_eq_true, ite_false, if_false]
  simp [hd]

theorem badScoreTok_ne_nil {tok : List Char} (h : badScoreTok tok = true) : tok ≠ [] := by
  intro hh
  subst hh
  exact absurd h (by decide)

theorem badScoreTok_no_lparen {tok : List Char} (h : badScoreTok tok = true) : '(' ∉ tok := by
  unfold badScoreTok at h
  simp only [Bool.and_eq_true, Bool.not_eq_true', decide_eq_false_iff_not] at h
  exact h.1.1.1.2

theorem badScoreTok_no_break {tok : List Char} (h : badScoreTok tok = true) :
    ∀ c ∈ tok, isLineBreak c = false := by
  unfold badScoreTok at h
  simp only [Bool.and_eq_true, Bool.not_eq_true', decide_eq_false_iff_not,
    List.all_eq_true] at h
  intro c hc
  have := h.1.1.2 c hc
  simpa using this

theorem badScoreTok_head {tok : List Char} {c : Char} (h : badScoreTok tok = true)
    (hc : tok.head? = some c) : isPySpace c = false ∧ scoreDigit c = false := by
  unfold badScoreTok at h
  simp only [Bool.and_eq_true] at h
  have h4 := h.1.2
  rw [hc] at h4
  simp only [Bool.and_eq_true, Bool.not_eq_true'] at h4
  exact h4

theorem badScoreTok_last {tok : List Char} {c : Char} (h : badScoreTok tok = true)
    (hc : tok.getLast? = some c) : isPySpace c = false ∧ scoreDigit c = false := by
  unfold badScoreTok at h
  simp only [Bool.and_eq_true] at h
  have h5 := h.2
  rw [hc] at h5
  simp only [Bool.and_eq_true, Bool.not_eq_true'] at h5
  exact h5

theorem getLast?_cons_of_ne_nil {c : Char} {l : List Char} (h : l ≠ []) :
    (c :: l).getLast? = l.getLast? := by
  cases l with
  | nil => exact absurd rfl h
  | cons a t => rw [List.getLast?_cons_cons]

theorem pyStrip_append_eq_self {a b : List Char} (ha : a ≠ [])
    (hhead : ∀ c, a.head? = some c → isPySpace c = false)
    (hb : b ≠ []) (hlast : ∀ c, b.getLast? = some c → isPySpace c = false) :
    pyStrip (a ++ b) = a ++ b := by
  apply pyStrip_eq_self
  · intro c hc
    cases a with
    | nil => exact absurd rfl ha
    | cons a0 t =>
      rw [List.cons_append, List.head?_cons] at hc
      cases hc
      exact hhead _ rfl
  · intro c hc
    rw [List.getLast?_append_of_ne_nil _ hb] at hc
    exact hlast c hc

theorem no_newline_append {a b : List Char} (ha : '\n' ∉ a) (hb : '\n' ∉ b) :
    '\n' ∉ a ++ b := by
  intro hm
  rcases List.mem_append.mp hm with h | h
  · exact ha h
  · exact hb h

theorem linesOf_single {b : List Char} (hnb : ∀ c ∈ b, isLineBreak c = false)
    (hstrip : pyStrip b = b) (hne : b ≠ []) : linesOf b = [b] := by
  unfold linesOf
  rw [pySplitlines_single hnb hne]
  simp [hstrip, List.isEmpty_eq_false, hne]

theorem tryShapeB_none_single {b : List Char} {x : Char}
    (hnb : ∀ c ∈ b, isLineBreak c = false) (hstrip : pyStrip b = b) (hne : b ≠ [])
    (hlast : b.getLast? = some x) (hxs : isPySpace x = false) (hxd : scoreDigit x = false) :
    tryShapeB b = .ok none := by
  rw [tryShapeB_eq_cons (linesOf_single hnb hstrip hne)]
  rw [findCatB_none_of_last hxs hxd b hlast []]

theorem parseBlocks_cons (e : List Char) (rest : List (List Char)) (d : Feedback) :
    parseBlocks (e :: rest) d =
      match processEntry e with
      | .error u => .error u
      | .ok none => parseBlocks rest d
      | .ok (some (k, v)) => parseBlocks rest (dictInsert k v d) := rfl

theorem parse_single_none {b : List Char} (hstrip : pyStrip b = b) (hnn : '\n' ∉ b)
    (hpe : processEntry b = .ok none) : parse_judge_feedback b = .ok [] := by
  unfold parse_judge_feedback splitBlank
  rw [hstrip, goSplit_no_newline hnn []]
  simp only [List.reverse_nil, List.nil_append]
  rw [parseBlocks_cons, hpe]
  rfl

theorem catSuffix_matchTail_none {cat : List Char} (hcat : isClean cat = true)
    (hpar : '(' ∉ cat) (rest : List Char) :
    ∀ a b, cat = a ++ b → a ≠ [] → b ≠ [] → matchTail (b ++ rest) = none := by
  intro a b hab _ hb
  obtain ⟨x, hx⟩ := getLast?_some_of_ne_nil hb
  have hxcat : cat.getLast? = some x := by
    rw [hab, List.getLast?_append_of_ne_nil a hb]
    exact hx
  exact matchTail_append_none _ (mem_of_getLast?_some hx) (isClean_getLast hcat hxcat)
    (fun hm => hpar (hab ▸ List.mem_append_right a hm))

theorem tryShapeA_bareScore {cat : List Char} {d : Char}
    (hcat : isClean cat = true) (hpar : '(' ∉ cat) (hd : scoreDigit d = true) :
    tryShapeA (cat ++ (' ' :: '(' :: d :: ')' :: [])) = none := by
  have hskip : ∀ a b, cat = a ++ b → a ≠ [] →
      matchTail (b ++ (' ' :: '(' :: d :: ')' :: [])) = none := by
    intro a b hab ha
    by_cases hbe : b = []
    · subst hbe
      rw [List.nil_append, matchTail_sp]
      exact matchTail_lparen_no_reason hd
    · exact catSuffix_matchTail_none hcat hpar _ a b hab ha hbe
  have hnone : findCatSplit [] (cat ++ (' ' :: '(' :: d :: ')' :: [])) = none := by
    rw [findCatSplit_skip hskip [], findCatSplit_cons, matchTail_lparen_no_reason hd]
    show findCatSplit (' ' :: (cat.reverse ++ [])) ('(' :: d :: ')' :: []) = none
    rw [findCatSplit_cons,
      matchTail_cons_nonlparen (scoreDigit_space hd) (scoreDigit_lparen hd) _]
    show findCatSplit ('(' :: ' ' :: (cat.reverse ++ [])) (d :: ')' :: []) = none
    rfl
  unfold tryShapeA
  rw [hnone]

theorem bareScore_no_newline {cat : List Char} {d : Char}
    (hcat : isClean cat = true) (hd : scoreDigit d = true) :
    '\n' ∉ (cat ++ (' ' :: '(' :: d :: ')' :: [])) := by
  apply no_newline_append (isClean_no_newline hcat)
  intro hm
  simp only [List.mem_cons, List.not_mem_nil, or_false] at hm
  rcases hm with h | h | h | h
  · exact absurd h (by decide)
  · exact absurd h (by decide)
  · have := scoreDigit_break hd
    rw [← h] at this
    exact absurd this (by decide)
  · exact absurd h (by decide)

theorem bareScore_strip {cat : List Char} {d : Char}
    (hcat : isClean cat = true) :
    pyStrip (cat ++ (' ' :: '(' :: d :: ')' :: [])) =
      cat ++ (' ' :: '(' :: d :: ')' :: []) := by
  apply pyStrip_append_eq_self (isClean_parts hcat).1 (fun c hc => isClean_head hcat hc)
    (by simp)
  intro c hc
  simp only [List.getLast?_cons_cons, List.getLast?_singleton, Option.some.injEq] at hc
  subst hc
  decide

theorem bareScore_getLast {cat : List Char} {d : Char} :
    (cat ++ (' ' :: '(' :: d :: ')' :: [])).getLast? = some ')' := by
  rw [List.getLast?_append_of_ne_nil _ (by simp)]
  simp [List.getLast?_cons_cons]

theorem processEntry_bareScore {cat : List Char} {d : Char}
    (hcat : isClean cat = true) (hpar : '(' ∉ cat) (hd : scoreDigit d = true) :
    processEntry (cat ++ (' ' :: '(' :: d :: ')' :: [])) = .ok none := by
  have hnb : ∀ c ∈ cat ++ (' ' :: '(' :: d :: ')' :: []), isLineBreak c = false := by
    intro c hc
    cases hb : isLineBreak c
    · rfl
    · have : c = '\n' ∨ c ≠ '\n' := em _
      exact absurd hc (by
        intro hmem
        rcases List.mem_append.mp hmem with h | h
        · rw [(isClean_parts hcat).2.2 c h] at hb; cases hb
        · simp only [List.mem_cons, List.not_mem_nil, or_false] at h
          rcases h with h | h | h | h
          · subst h; cases hb
          · subst h; cases hb
          · subst h; rw [scoreDigit_break hd] at hb; cases hb
          · subst h; cases hb)
  have hstrip := bareScore_strip (d := d) hcat
  have hne : cat ++ (' ' :: '(' :: d :: ')' :: []) ≠ [] := by simp
  have hemp : (cat ++ (' ' :: '(' :: d :: ')' :: [])).isEmpty = false := by
    rw [List.isEmpty_eq_false]
    exact hne
  unfold processEntry
  simp only [hstrip, hemp, Bool.false_eq_true, if_false, ite_false]
  rw [map_newline_id (bareScore_no_newline hcat hd), tryShapeA_bareScore hcat hpar hd]
  exact tryShapeB_none_single hnb hstrip hne bareScore_getLast (by decide) (by decide)

theorem parse_bareScore {cat : List Char} {d : Char}
    (hcat : isClean cat = true) (hpar : '(' ∉ cat) (hd : scoreDigit d = true) :
    parse_judge_feedback (cat ++ (' ' :: '(' :: d :: ')' :: [])) = .ok [] :=
  parse_single_none (bareScore_strip hcat) (bareScore_no_newline hcat hd)
    (processEntry_bareScore hcat hpar hd)

theorem tryShapeA_colonScore {cat : List Char} {d : Char}
    (hcat : isClean cat = true) (hpar : '(' ∉ cat) (hd : scoreDigit d = true) :
    tryShapeA (cat ++ (' ' :: '(' :: d :: ')' :: [':'])) =
      some (cat, { score := digitVal d, reasoning := [':'] }) := by
  have hs : matchTail (' ' :: '(' :: d :: ')' :: [':']) = some (d, [':']) := by
    rw [matchTail_sp]
    exact matchTail_colon_only hd
  unfold tryShapeA
  rw [findCatSplit_boundary (isClean_parts hcat).1
    (catSuffix_matchTail_none hcat hpar _) hs []]
  show some (pyStrip ([].reverse ++ cat),
      ({ score := digitVal d, reasoning := pyStrip [':'] } : CritiqueEntry)) =
    some (cat, ({ score := digitVal d, reasoning := [':'] } : CritiqueEntry))
  rw [List.reverse_nil, List.nil_append, (isClean_parts hcat).2.1]
  rfl

theorem colonScore_no_newline {cat : List Char} {d : Char}
    (hcat : isClean cat = true) (hd : scoreDigit d = true) :
    '\n' ∉ (cat ++ (' ' :: '(' :: d :: ')' :: [':'])) := by
  apply no_newline_append (isClean_no_newline hcat)
  intro hm
  simp only [List.mem_cons, List.not_mem_nil, or_false] at hm
  rcases hm with h | h | h | h | h
  · exact absurd h (by decide)
  · exact absurd h (by decide)
  · have := scoreDigit_break hd
    rw [← h] at this
    exact absurd this (by decide)
  · exact absurd h (by decide)
  · exact absurd h (by decide)

theorem colonScore_strip {cat : List Char} {d : Char}
    (hcat : isClean cat = true) :
    pyStrip (cat ++ (' ' :: '(' :: d :: ')' :: [':'])) =
      cat ++ (' ' :: '(' :: d :: ')' :: [':']) := by
  apply pyStrip_append_eq_self (isClean_parts hcat).1 (fun c hc => isClean_head hcat hc)
    (by simp)
  intro c hc
  simp only [List.getLast?_cons_cons, List.getLast?_singleton, Option.some.injEq] at hc
  subst hc
  decide

theorem processEntry_colonScore {cat : List Char} {d : Char}
    (hcat : isClean cat = true) (hpar : '(' ∉ cat) (hd : scoreDigit d = true) :
    processEntry (cat ++ (' ' :: '(' :: d :: ')' :: [':'])) =
      .ok (some (cat, { score := digitVal d, reasoning := [':'] })) := by
  have hstrip := colonScore_strip (d := d) hcat
  have hemp : (cat ++ (' ' :: '(' :: d :: ')' :: [':'])).isEmpty = false := by
    rw [List.isEmpty_eq_false]
    simp
  unfold processEntry
  simp only [hstrip, hemp, Bool.false_eq_true, if_false, ite_false]
  rw [map_newline_id (colonScore_no_newline hcat hd), tryShapeA_colonScore hcat hpar hd]

theorem renderInlineTok_eq (cat tok reason : List Char) :
    renderInlineTok cat tok reason =
      cat ++ (' ' :: '(' :: (tok ++ (')' :: ':' :: ' ' :: reason))) := by
  unfold renderInlineTok
  simp only [List.append_assoc]
  rfl

theorem renderTwoLineTok_eq (cat tok : List Char) :
    renderTwoLineTok cat tok = cat ++ (':' :: ' ' :: tok) := by
  unfold renderTwoLineTok
  simp only [List.append_assoc]
  rfl

theorem tryShapeA_inlineBad {cat : List Char} {t0 : Char} {tt reason : List Char}
    (hcat : isClean cat = true) (hpar : '(' ∉ cat)
    (htok : badScoreTok (t0 :: tt) = true) (hrpar : '(' ∉ reason) :
    tryShapeA (cat ++ (' ' :: '(' :: ((t0 :: tt) ++ (')' :: ':' :: ' ' :: reason)))) =
      none := by
  obtain ⟨hts, htd⟩ := badScoreTok_head htok (List.head?_cons)
  have hQ : '(' ∉ (t0 :: tt) ++ (')' :: ':' :: ' ' :: reason) := by
    intro hm
    rcases List.mem_append.mp hm with h | h
    · exact badScoreTok_no_lparen htok h
    · simp only [List.mem_cons, List.not_mem_nil, or_false] at h
      rcases h with h | h | h | h
      · exact absurd h (by decide)
      · exact absurd h (by decide)
      · exact absurd h (by decide)
      · exact hrpar h
  have hskip : ∀ a b, cat = a ++ b → a ≠ [] →
      matchTail (b ++ (' ' :: '(' :: ((t0 :: tt) ++ (')' :: ':' :: ' ' :: reason)))) =
        none := by
    intro a b hab ha
    by_cases hbe : b = []
    · subst hbe
      rw [List.nil_append, matchTail_sp]
      exact matchTail_lparen_badHead _ hts htd
    · exact catSuffix_matchTail_none hcat hpar _ a b hab ha hbe
  have hnone :
      findCatSplit []
        (cat ++ (' ' :: '(' :: ((t0 :: tt) ++ (')' :: ':' :: ' ' :: reason)))) = none := by
    rw [findCatSplit_skip hskip [], findCatSplit_cons, matchTail_lparen_badHead _ hts htd]
    show findCatSplit (' ' :: (cat.reverse ++ []))
      ('(' :: ((t0 :: tt) ++ (')' :: ':' :: ' ' :: reason))) = none
    rw [findCatSplit_cons, matchTail_none_of_no_lparen hQ]
    show findCatSplit ('(' :: ' ' :: (cat.reverse ++ []))
      ((t0 :: tt) ++ (')' :: ':' :: ' ' :: reason)) = none
    exact findCatSplit_none_of_no_lparen hQ _
  unfold tryShapeA
  rw [hnone]

theorem processEntry_inlineBad {cat tok reason : List Char} {x : Char}
    (hcat : isClean cat = true) (hpar : '(' ∉ cat) (htok : badScoreTok tok = true)
    (hr : isClean reason = true) (hrpar : '(' ∉ reason)
    (hx : reason.getLast? = some x) (hxd : scoreDigit x = false) :
    processEntry (renderInlineTok cat tok reason) = .ok none := by
  obtain ⟨hrne, hrstrip, hrnb⟩ := isClean_parts hr
  cases tok with
  | nil => exact absurd rfl (badScoreTok_ne_nil htok)
  | cons t0 tt =>
    rw [renderInlineTok_eq]
    have hnb : ∀ c ∈ cat ++ (' ' :: '(' :: ((t0 :: tt) ++ (')' :: ':' :: ' ' :: reason))),
        isLineBreak c = false := by
      intro c hc
      rcases List.mem_append.mp hc with h | h
      · exact (isClean_parts hcat).2.2 c h
      · simp only [List.mem_cons] at h
        rcases h with h | h | h
        · subst h; decide
        · subst h; decide
        · rcases List.mem_append.mp h with h2 | h2
          · exact badScoreTok_no_break htok c h2
          · simp only [List.mem_cons] at h2
            rcases h2 with h3 | h3 | h3 | h3
            · subst h3; decide
            · subst h3; decide
            · subst h3; decide
            · exact hrnb c h3
    have hlastb :
        (cat ++ (' ' :: '(' :: ((t0 :: tt) ++ (')' :: ':' :: ' ' :: reason)))).getLast? =
          reason.getLast? := by
      rw [List.getLast?_append_of_ne_nil _ (by simp),
        getLast?_cons_of_ne_nil (by simp), getLast?_cons_of_ne_nil (by simp),
        List.getLast?_append_of_ne_nil _ (by simp),
        getLast?_cons_of_ne_nil (by simp), getLast?_cons_of_ne_nil (by simp),
        getLast?_cons_of_ne_nil hrne]
    have hxs : isPySpace x = false :=
      isClean_getLast hr hx
    have hstrip : pyStrip (cat ++ (' ' :: '(' :: ((t0 :: tt) ++ (')' :: ':' :: ' ' :: reason)))) =
        cat ++ (' ' :: '(' :: ((t0 :: tt) ++ (')' :: ':' :: ' ' :: reason))) := by
      apply pyStrip_eq_self
      · intro c hc
        cases hcm : cat with
        | nil => exact absurd hcm (isClean_parts hcat).1
        | cons c0 ct =>
          rw [hcm, List.cons_append, List.head?_cons] at hc
          cases hc
          exact isClean_head hcat (by rw [hcm]; rfl)
      · intro c hc
        rw [hlastb, hx] at hc
        cases hc
        exact hxs
    have hne : cat ++ (' ' :: '(' :: ((t0 :: tt) ++ (')' :: ':' :: ' ' :: reason))) ≠ [] := by
      simp
    have hemp : (cat ++ (' ' :: '(' :: ((t0 :: tt) ++
        (')' :: ':' :: ' ' :: reason)))).isEmpty = false := by
      rw [List.isEmpty_eq_false]
      exact hne
    have hnn : '\n' ∉ cat ++ (' ' :: '(' :: ((t0 :: tt) ++ (')' :: ':' :: ' ' :: reason))) := by
      intro hm
      have := hnb '\n' hm
      exact absurd this (by decide)
    unfold processEntry
    simp only [hstrip, hemp, Bool.false_eq_true, if_false, ite_false]
    rw [map_newline_id hnn, tryShapeA_inlineBad hcat hpar htok hrpar]
    exact tryShapeB_none_single hnb hstrip hne (by rw [hlastb]; exact hx) hxs hxd

theorem processEntry_twoLineBad {cat tok : List Char}
    (hcat : isClean cat = true) (hpar : '(' ∉ cat) (htok : badScoreTok tok = true) :
    processEntry (renderTwoLineTok cat tok) = .ok none := by
  obtain ⟨x, hx⟩ := getLast?_some_of_ne_nil (badScoreTok_ne_nil htok)
  obtain ⟨hxs, hxd⟩ := badScoreTok_last htok hx
  rw [renderTwoLineTok_eq]
  have hbpar : '(' ∉ cat ++ (':' :: ' ' :: tok) := by
    intro hm
    rcases List.mem_append.mp hm with h | h
    · exact hpar h
    · simp only [List.mem_cons] at h
      rcases h with h | h | h
      · exact absurd h (by decide)
      · exact absurd h (by decide)
      · exact badScoreTok_no_lparen htok h
  have hnb : ∀ c ∈ cat ++ (':' :: ' ' :: tok), isLineBreak c = false := by
    intro c hc
    rcases List.mem_append.mp hc with h | h
    · exact (isClean_parts hcat).2.2 c h
    · simp only [List.mem_cons] at h
      rcases h with h | h | h
      · subst h; decide
      · subst h; decide
      · exact badScoreTok_no_break htok c h
  have hlastb : (cat ++ (':' :: ' ' :: tok)).getLast? = some x := by
    rw [List.getLast?_append_of_ne_nil _ (by simp),
      getLast?_cons_of_ne_nil (by simp [badScoreTok_ne_nil htok]),
      getLast?_cons_of_ne_nil (badScoreTok_ne_nil htok)]
    exact hx
  have hstrip : pyStrip (cat ++ (':' :: ' ' :: tok)) = cat ++ (':' :: ' ' :: tok) := by
    apply pyStrip_eq_self
    · intro c hc
      cases hcm : cat with
      | nil => exact absurd hcm (isClean_parts hcat).1
      | cons c0 ct =>
        rw [hcm, List.cons_append, List.head?_cons] at hc
        cases hc
        exact isClean_head hcat (by rw [hcm]; rfl)
    · intro c hc
      rw [hlastb] at hc
      cases hc
      exact hxs
  have hne : cat ++ (':' :: ' ' :: tok) ≠ [] := by simp
  have hemp : (cat ++ (':' :: ' ' :: tok)).isEmpty = false := by
    rw [List.isEmpty_eq_false]
    exact hne
  have hnn : '\n' ∉ cat ++ (':' :: ' ' :: tok) := by
    intro hm
    have := hnb '\n' hm
    exact absurd this (by decide)
  have htA : tryShapeA (cat ++ (':' :: ' ' :: tok)) = none := by
    unfold tryShapeA
    rw [findCatSplit_none_of_no_lparen hbpar []]
  unfold processEntry
  simp only [hstrip, hemp, Bool.false_eq_true, if_false, ite_false]
  rw [map_newline_id hnn, htA]
  exact tryShapeB_none_single hnb hstrip hne hlastb hxs hxd

/-!
## The claims

One theorem per claim of the specification audit, each stated over the
definitions above, followed by its closed witness (and, for the corrected
claims, a closed counterexample).
-/

theorem dictInsert_head (k : List Char) (v v0 : CritiqueEntry) (rest : Feedback) :
    dictInsert k v ((k, v0) :: rest) = (k, v) :: rest := by
  unfold dictInsert
  rw [if_pos rfl]

/-- C1: the revision loop declares convergence (breaks and keeps the story)
exactly when every parsed entry has score 4 — vacuously for zero entries —
and issues a revision request exactly when some parsed entry scores below 4.
The equivalence with "all scores are 4" uses that every parsed score lies in
1..4. -/
theorem claim_C1 : ∀ (t topic story : List Char) (d : Feedback),
    parse_judge_feedback t = .ok d →
    (loopStep topic story d = .converged story ↔ ∀ p ∈ d, p.2.score = 4) ∧
    ((∃ req, loopStep topic story d = .revise req) ↔ ∃ p ∈ d, p.2.score < 4) := by
  intro t topic story d h
  have hbound := parse_score h
  constructor
  · rw [loopStep_converged_iff]
    constructor
    · intro hall p hp
      have hb := hbound p hp
      have hnl := hall p hp
      omega
    · intro hall p hp
      have := hall p hp
      omega
  · exact loopStep_revise_iff topic story d

theorem claim_C1_witness :
    (loopStep [] [] [("theme".data, { score := 4, reasoning := "good".data })] =
        .converged [] ↔
      ∀ p ∈ [(("theme".data : List Char),
          ({ score := 4, reasoning := "good".data } : CritiqueEntry))], p.2.score = 4) ∧
    ((∃ req, loopStep [] [] [("theme".data, { score := 4, reasoning := "good".data })] =
        .revise req) ↔
      ∃ p ∈ [(("theme".data : List Char),
          ({ score := 4, reasoning := "good".data } : CritiqueEntry))], p.2.score < 4) :=
  claim_C1 ("theme (4): good".data) [] []
    [("theme".data, { score := 4, reasoning := "good".data })] rfl

/-- C2: a judge text from which the parser extracts no entries — the empty
string included — yields the empty critique set, and the controller then
converges at once: the loop breaks and `story_editor` would return the story
unchanged without an external call. -/
theorem claim_C2 :
    parse_judge_feedback [] = .ok [] ∧
    ∀ (t topic story : List Char) (d : Feedback),
      parse_judge_feedback t = .ok d → d = [] →
      loopStep topic story d = .converged story ∧
      story_editor topic story d = Sum.inl story := by
  refine ⟨rfl, ?_⟩
  intro t topic story d _ hd
  subst hd
  exact ⟨(loopStep_converged_iff topic story []).mpr (fun p hp => absurd hp (List.not_mem_nil p)),
    story_editor_eq_inl (fun p hp => absurd hp (List.not_mem_nil p))⟩

theorem claim_C2_witness :
    loopStep [] [] [] = .converged [] ∧ story_editor [] [] [] = Sum.inl [] :=
  claim_C2.2 ("completely malformed garbage".data) [] [] [] rfl rfl

/-- C3: `parse_judge_feedback` is total — it returns a mapping for every
input and never raises — and a block recognised by neither shape contributes
nothing: deleting it from the block list leaves the parse unchanged. -/
theorem claim_C3 :
    (∀ t : List Char, ∃ d, parse_judge_feedback t = .ok d) ∧
    (∀ junk : List Char, processEntry junk = .ok none →
      ∀ (pre post : List (List Char)) (d : Feedback),
        parseBlocks (pre ++ junk :: post) d = parseBlocks (pre ++ post) d) :=
  ⟨parse_total, fun _ hj pre post d => parseBlocks_junk hj pre post d⟩

theorem claim_C3_witness :
    parseBlocks (["a (4): ok".data] ++ ("malformed garbage".data) :: []) [] =
      parseBlocks (["a (4): ok".data] ++ []) [] :=
  claim_C3.2 ("malformed garbage".data) rfl ["a (4): ok".data] [] []

/-- C4 (amended): when revision is needed the request carries the original
topic, the current story, and one line per sub-4 entry — but each line is
`"- <category>: score <n> because <reasoning>"`: the code prepends `"- "` to
the `<category>: score <n> because <reasoning>` text the spec claims. -/
theorem claim_C4 : ∀ (topic story : List Char) (parsed : Feedback),
    (∃ p ∈ parsed, p.2.score < 4) →
    loopStep topic story parsed =
      .revise { topic := topic, story := story,
                suggestions :=
                  joinLines ((parsed.filter (fun p => decide (p.2.score < 4))).map
                    (fun p => ("- ".data) ++ claimedIssueText p.1 p.2)) } := by
  intro topic story parsed h
  rw [loopStep_revise_eq h]
  unfold revisionRequest
  have hmap : issuesOf parsed =
      (parsed.filter (fun p => decide (p.2.score < 4))).map
        (fun p => ("- ".data) ++ claimedIssueText p.1 p.2) := by
    rw [issuesOf_eq_map_filter]
    exact List.map_congr_left (fun p _ => renderIssue_eq p.1 p.2)
  rw [hmap]

theorem claim_C4_witness :
    loopStep [] [] [("lang".data, { score := 2, reasoning := "bad".data })] =
      .revise { topic := [], story := [],
                suggestions :=
                  joinLines (([(("lang".data : List Char),
                      ({ score := 2, reasoning := "bad".data } : CritiqueEntry))].filter
                      (fun p => decide (p.2.score < 4))).map
                    (fun p => ("- ".data) ++ claimedIssueText p.1 p.2)) } :=
  claim_C4 [] [] _ ⟨_, List.mem_cons_self _ _, by decide⟩

theorem claim_C4_counterexample :
    (revisionRequest [] [] [("lang".data, { score := 2, reasoning := "bad".data })]).suggestions ≠
      joinLines [claimedIssueText ("lang".data) { score := 2, reasoning := "bad".data }] := by
  decide

/-- C5: no score outside 1..4 is ever recorded — every entry of a parse
carries a score in 1..4, so nothing is coerced to a default — and a block in
either shape whose score token cannot be read as one of the digits 1–4 (such
as `0`, `5` or `four`) is dropped entirely: it contributes no entry. -/
theorem claim_C5 :
    (∀ (t : List Char) (d : Feedback), parse_judge_feedback t = .ok d →
      ∀ p ∈ d, 1 ≤ p.2.score ∧ p.2.score ≤ 4) ∧
    (∀ (cat tok reason : List Char) (x : Char),
      isClean cat = true → '(' ∉ cat → badScoreTok tok = true →
      isClean reason = true → '(' ∉ reason →
      reason.getLast? = some x → scoreDigit x = false →
      processEntry (renderInlineTok cat tok reason) = .ok none) ∧
    (∀ cat tok : List Char,
      isClean cat = true → '(' ∉ cat → badScoreTok tok = true →
      processEntry (renderTwoLineTok cat tok) = .ok none) :=
  ⟨fun _ _ h => parse_score h,
   fun _ _ _ _ hcat hpar htok hr hrpar hx hxd =>
     processEntry_inlineBad hcat hpar htok hr hrpar hx hxd,
   fun _ _ hcat hpar htok => processEntry_twoLineBad hcat hpar htok⟩

theorem claim_C5_witness :
    (∀ p ∈ ([] : Feedback), 1 ≤ p.2.score ∧ p.2.score ≤ 4) ∧
    processEntry (renderInlineTok ("lang".data) ("5".data) ("bad".data)) = .ok none ∧
    processEntry (renderTwoLineTok ("cat".data) ("five".data)) = .ok none :=
  ⟨claim_C5.1 ("lang (5): bad".data) [] rfl,
   claim_C5.2.1 ("lang".data) ("5".data) ("bad".data) 'd' (by decide) (by decide)
     (by decide) (by decide) (by decide) (by decide) (by decide),
   claim_C5.2.2 ("cat".data) ("five".data) (by decide) (by decide) (by decide)⟩

/-- C6: a repeated category label keeps a single entry: writing under an
existing key overwrites its value in place, so the last occurrence's score
and reasoning win while the key keeps the position of its first occurrence;
at the parser level, two blocks with the same label yield one entry holding
the later block's score and reasoning. -/
theorem claim_C6 :
    (∀ (k : List Char) (v : CritiqueEntry) (d : Feedback),
      lookupEntry k (dictInsert k v d) = some v) ∧
    (∀ (k : List Char) (v : CritiqueEntry) (d : Feedback),
      k ∈ d.map Prod.fst → (dictInsert k v d).map Prod.fst = d.map Prod.fst) ∧
    (∀ (cat : List Char) (d1 : Char) (r1 : List Char) (d2 : Char) (r2 : List Char),
      isClean cat = true → '(' ∉ cat → scoreDigit d1 = true → isClean r1 = true →
      scoreDigit d2 = true → isClean r2 = true →
      parse_judge_feedback (joinBlocks [renderShapeA cat d1 r1, renderShapeA cat d2 r2]) =
        .ok [(cat, { score := digitVal d2, reasoning := r2 })]) := by
  refine ⟨lookupEntry_dictInsert, fun k v d h => dictInsert_keys_of_mem d h, ?_⟩
  intro cat d1 r1 d2 r2 hcat hpar hd1 hr1 hd2 hr2
  have hgb1 : goodBlock (renderShapeA cat d1 r1) = true :=
    goodBlock_intro renderShapeA_ne_nil (renderShapeA_strip hcat hr1)
      (nlOk_of_no_newline (renderShapeA_no_newline hcat hd1 hr1))
  have hgb2 : goodBlock (renderShapeA cat d2 r2) = true :=
    goodBlock_intro renderShapeA_ne_nil (renderShapeA_strip hcat hr2)
      (nlOk_of_no_newline (renderShapeA_no_newline hcat hd2 hr2))
  have hgood : ∀ b ∈ [renderShapeA cat d1 r1, renderShapeA cat d2 r2],
      goodBlock b = true := by
    intro b hb
    simp only [List.mem_cons, List.not_mem_nil, or_false] at hb
    rcases hb with rfl | rfl
    · exact hgb1
    · exact hgb2
  have hstrip : pyStrip (joinBlocks [renderShapeA cat d1 r1, renderShapeA cat d2 r2]) =
      joinBlocks [renderShapeA cat d1 r1, renderShapeA cat d2 r2] :=
    pyStrip_eq_self (joinBlocks_head_not_ws _ hgood) (joinBlocks_getLast_not_ws _ hgood)
  unfold parse_judge_feedback
  rw [hstrip, splitBlank_joinBlocks _ (by simp) hgood]
  rw [parseBlocks_cons, processEntry_renderA hcat hpar hd1 hr1]
  show parseBlocks [renderShapeA cat d2 r2]
    (dictInsert cat { score := digitVal d1, reasoning := r1 } []) = _
  rw [parseBlocks_cons, processEntry_renderA hcat hpar hd2 hr2]
  show parseBlocks []
    (dictInsert cat { score := digitVal d2, reasoning := r2 }
      (dictInsert cat { score := digitVal d1, reasoning := r1 } [])) = _
  rw [show dictInsert cat ({ score := digitVal d1, reasoning := r1 } : CritiqueEntry) [] =
      [(cat, { score := digitVal d1, reasoning := r1 })] from rfl,
    dictInsert_head]
  rfl

theorem claim_C6_witness :
    lookupEntry ("theme".data)
        (dictInsert ("theme".data) { score := 4, reasoning := "Better.".data }
          [(("theme".data : List Char),
            ({ score := 2, reasoning := "Weak.".data } : CritiqueEntry))]) =
      some { score := 4, reasoning := "Better.".data } ∧
    (dictInsert ("theme".data) ({ score := 4, reasoning := "Better.".data } : CritiqueEntry)
        [(("theme".data : List Char),
          ({ score := 2, reasoning := "Weak.".data } : CritiqueEntry))]).map Prod.fst =
      [(("theme".data : List Char),
        ({ score := 2, reasoning := "Weak.".data } : CritiqueEntry))].map Prod.fst ∧
    parse_judge_feedback (joinBlocks [renderShapeA ("theme".data) '2' ("Weak.".data),
        renderShapeA ("theme".data) '4' ("Better.".data)]) =
      .ok [("theme".data, { score := digitVal '4', reasoning := "Better.".data })] :=
  ⟨claim_C6.1 ("theme".data) _ _,
   claim_C6.2.1 ("theme".data) _ _ (by decide),
   claim_C6.2.2 ("theme".data) '2' ("Weak.".data) '4' ("Better.".data)
     (by decide) (by decide) (by decide) (by decide) (by decide) (by decide)⟩

/-- C7: in the inline shape the reasoning group runs to the end of the
block: for a category before the parenthesised score and any clean reasoning
text — colons and separators inside it included — the parse records that
category with the reasoning preserved whole, the category being the shortest
prefix that the pattern accepts. -/
theorem claim_C7 : ∀ (cat : List Char) (d : Char) (reason : List Char),
    isClean cat = true → '(' ∉ cat → scoreDigit d = true → isClean reason = true →
    tryShapeA (renderShapeA cat d reason) =
      some (cat, { score := digitVal d, reasoning := reason }) ∧
    parse_judge_feedback (renderShapeA cat d reason) =
      .ok [(cat, { score := digitVal d, reasoning := reason })] :=
  fun _ _ _ hcat hpar hd hr =>
    ⟨tryShapeA_renderA hcat hpar hd hr, parse_single_renderA hcat hpar hd hr⟩

theorem claim_C7_witness :
    tryShapeA (renderShapeA ("theme".data) '3' ("reason with: colon and more".data)) =
      some ("theme".data, { score := digitVal '3',
                            reasoning := "reason with: colon and more".data }) ∧
    parse_judge_feedback (renderShapeA ("theme".data) '3'
        ("reason with: colon and more".data)) =
      .ok [("theme".data, { score := digitVal '3',
                            reasoning := "reason with: colon and more".data })] :=
  claim_C7 ("theme".data) '3' ("reason with: colon and more".data)
    (by decide) (by decide) (by decide) (by decide)

/-- C8 (amended): the round trip holds exactly under the shapes' own
well-formedness conditions (`wfItem`): every category label is non-empty,
stripped, free of line breaks and free of `(`, and the labels are pairwise
distinct; every score is a digit 1–4; for an entry serialised in the inline
shape A the reasoning is non-empty, stripped and free of line breaks; for the
two-line shape B the reasoning is free of `(` and either empty or itself
non-empty, stripped and free of line breaks. Under these conditions,
serialising each entry into its shape, separating entries by blank lines and
re-parsing returns exactly the same keys and scores with every reasoning
preserved verbatim. Outside them the round trip genuinely fails: an inline
entry with empty reasoning re-parses with reasoning `":"` (the
counterexample), a label containing a parenthesised digit re-parses under a
truncated key, and unstripped reasoning comes back stripped. -/
theorem claim_C8 : ∀ (items : List Item),
    (∀ it ∈ items, wfItem it = true) → (items.map itemKey).Nodup →
    parse_judge_feedback (serializeCritiques items) = .ok (items.map itemPair) :=
  fun _ hwf hnd => parse_serializeCritiques hwf hnd

theorem claim_C8_witness :
    parse_judge_feedback (serializeCritiques
        [(Shape.A, "theme".data, '4', "Good fit.".data),
         (Shape.B, "pacing".data, '2', "Too slow.".data)]) =
      .ok ([((Shape.A : Shape), ("theme".data : List Char), '4',
            ("Good fit.".data : List Char)),
            (Shape.B, "pacing".data, '2', "Too slow.".data)].map itemPair) :=
  claim_C8 _ (by decide) (by decide)

theorem claim_C8_counterexample :
    parse_judge_feedback (serializeCritiques [(Shape.A, "theme".data, '4', [])]) =
      .ok [("theme".data, { score := 4, reasoning := [':'] })] ∧
    ¬ ([(("theme".data : List Char), ({ score := 4, reasoning := [':'] } : CritiqueEntry))] =
        [((Shape.A : Shape), ("theme".data : List Char), '4', ([] : List Char))].map itemPair) :=
  ⟨rfl, by decide⟩

/-- C9: with no sub-4 entry in the feedback, `story_editor` returns its
story argument unchanged and never reaches the external revision call; with
at least one sub-4 entry it hands the revision request to the external
collaborator. -/
theorem claim_C9 : ∀ (prompt story : List Char) (f : Feedback),
    ((∀ p ∈ f, ¬ (p.2.score < 4)) → story_editor prompt story f = Sum.inl story) ∧
    ((∃ p ∈ f, p.2.score < 4) →
      story_editor prompt story f = Sum.inr (revisionRequest prompt story f)) :=
  fun _ _ _ => ⟨story_editor_eq_inl, story_editor_eq_inr⟩

theorem claim_C9_witness :
    story_editor [] [] [(("a".data : List Char),
        ({ score := 4, reasoning := "x".data } : CritiqueEntry))] = Sum.inl [] ∧
    story_editor [] [] [(("b".data : List Char),
        ({ score := 2, reasoning := "y".data } : CritiqueEntry))] =
      Sum.inr (revisionRequest [] [] [("b".data, { score := 2, reasoning := "y".data })]) :=
  ⟨(claim_C9 [] [] _).1 (by decide),
   (claim_C9 [] [] _).2 ⟨_, List.mem_cons_self _ _, by decide⟩⟩

/-- C10 (amended): a block `<category> (<digit>)` with nothing after the
closing parenthesis is dropped — shape A demands a non-empty reasoning and
shape B fails on the trailing `)` — but `<category> (<digit>):` is NOT
dropped: the separator class backtracks, the final `:` itself becomes the
reasoning, and an entry with reasoning `":"` is recorded. -/
theorem claim_C10 : ∀ (cat : List Char) (d : Char),
    isClean cat = true → '(' ∉ cat → scoreDigit d = true →
    processEntry (cat ++ (" (".data) ++ [d] ++ (")".data)) = .ok none ∧
    parse_judge_feedback (cat ++ (" (".data) ++ [d] ++ (")".data)) = .ok [] ∧
    processEntry (cat ++ (" (".data) ++ [d] ++ ("):".data)) =
      .ok (some (cat, { score := digitVal d, reasoning := [':'] })) := by
  intro cat d hcat hpar hd
  have he1 : cat ++ (" (".data) ++ [d] ++ (")".data) =
      cat ++ (' ' :: '(' :: d :: ')' :: []) := by
    simp only [List.append_assoc]
    rfl
  have he2 : cat ++ (" (".data) ++ [d] ++ ("):".data) =
      cat ++ (' ' :: '(' :: d :: ')' :: [':']) := by
    simp only [List.append_assoc]
    rfl
  rw [he1, he2]
  exact ⟨processEntry_bareScore hcat hpar hd, parse_bareScore hcat hpar hd,
    processEntry_colonScore hcat hpar hd⟩

theorem claim_C10_witness :
    processEntry (("theme".data) ++ (" (".data) ++ ['4'] ++ (")".data)) = .ok none ∧
    parse_judge_feedback (("theme".data) ++ (" (".data) ++ ['4'] ++ (")".data)) = .ok [] ∧
    processEntry (("theme".data) ++ (" (".data) ++ ['4'] ++ ("):".data)) =
      .ok (some ("theme".data, { score := digitVal '4', reasoning := [':'] })) :=
  claim_C10 ("theme".data) '4' (by decide) (by decide) (by decide)

theorem claim_C10_counterexample :
    parse_judge_feedback ("theme (4):".data) =
      .ok [("theme".data, { score := 4, reasoning := [':'] })] := rfl

end BedtimeStory
